import Mathlib

/-!
Verification development for the DemPagtoContare payroll-complement
application.  The Python sources under scrutiny are:

  * `src/parsing_recibo.py`  — deterministic payroll-receipt extraction
    (`_regex_guess`) and the classification / reconciliation pass
    (`_post_process_eventos`);
  * `src/matching.py`        — reference-table matching
    (`_norm_nome`, `_score_name`, `find_colaborador_ref`);
  * `app.py`                 — the complement computation (`valor_a_pagar`).

Python strings are modelled as Lean `String` (a wrapper around `List Char`),
monetary values as `ℚ`, `None` as `Option.none`.  Python regular expressions
are modelled by explicit character-level matchers that implement the same
languages on the inputs the program feeds them.  Whitespace predicates cover
the ASCII whitespace characters, the only ones the relevant code paths can
produce.  Unicode NFKD decomposition and the combining-character table, used
only by `_norm_nome`, are kept as parameters of the embedding; theorems that
need facts about them take those facts as hypotheses.
-/

namespace DemPagto

/-! ## Python string primitives -/

/-- ASCII whitespace, the characters Python's `str.strip`, `str.split` and
the regex class `\s` recognise on the ASCII plane. -/
def isWsChar (c : Char) : Bool :=
  c.toNat = 32 || c.toNat = 9 || c.toNat = 10 || c.toNat = 13 ||
  c.toNat = 11 || c.toNat = 12

def isDigitCh (c : Char) : Bool :=
  48 ≤ c.toNat && c.toNat ≤ 57

/-- `str.strip()` on a character list. -/
def pyStripList (l : List Char) : List Char :=
  ((l.dropWhile isWsChar).reverse.dropWhile isWsChar).reverse

def pyStrip (s : String) : String :=
  ⟨pyStripList s.data⟩

/-- `str.upper()`; `Char.toUpper` uppercases exactly the basic latin
letters, which is all the relevant call sites can receive. -/
def pyUpper (s : String) : String :=
  ⟨s.data.map Char.toUpper⟩

/-- Split at every occurrence of a separator character, keeping empty
groups — the semantics of Python's `str.split(sep)` for a one-char `sep`. -/
def splitOnCharL (sep : Char) : List Char → List (List Char)
  | [] => [[]]
  | c :: cs =>
    match splitOnCharL sep cs with
    | [] => [[]]
    | g :: gs => if c = sep then [] :: g :: gs else (c :: g) :: gs

/-- Python's argument-less `str.split()`: maximal runs of non-whitespace. -/
def splitWs (l : List Char) : List (List Char) :=
  ((splitOnCharL ' ' (l.map (fun c => if isWsChar c then ' ' else c))).filter
    (· ≠ []))

/-- `" ".join(...)` on character lists. -/
def joinSpace (ts : List (List Char)) : List Char :=
  List.intercalate [' '] ts

/-- Does `needle` occur contiguously in `hay`? -/
def infixB (needle hay : List Char) : Bool :=
  hay.tails.any (fun t => needle.isPrefixOf t)

/-- `a in b` for Python strings: `needle` occurs contiguously in `hay`. -/
def containsStr (hay needle : String) : Bool :=
  infixB needle.data hay.data

/-- `re.sub(r"\D+", "", s)`: keep only ASCII digits. -/
def pyDigitsOf (s : String) : String :=
  ⟨s.data.filter isDigitCh⟩

/-- `_digits` from `matching.py`: `None` and `""` give `""`. -/
def pyDigits (s : Option String) : String :=
  match s with
  | none => ""
  | some s => pyDigitsOf s

/-- `str.title()` restricted to ASCII letters: uppercase a letter that
follows a non-letter, lowercase a letter that follows a letter. -/
def pyTitleGo : Bool → List Char → List Char
  | _, [] => []
  | prevAlpha, c :: cs =>
    if c.isAlpha then
      (if prevAlpha then c.toLower else c.toUpper) :: pyTitleGo true cs
    else
      c :: pyTitleGo false cs

def pyTitle (s : String) : String :=
  ⟨pyTitleGo false s.data⟩

/-- Value of a digit string, most significant first. -/
def natOfDigits (l : List Char) : ℚ :=
  l.foldl (fun acc c => acc * 10 + ((c.toNat : ℚ) - 48)) 0

/-- Fractional value of the digits after a decimal point. -/
def fracOfDigits (l : List Char) : ℚ :=
  natOfDigits l / (10 : ℚ) ^ l.length

/-- Python `float(s)` on the strings the program can build at its call
sites: an optional sign, then digits with at most one decimal point
(exponents cannot occur: the callers filter to `[0-9,.\-]` or feed
monetary tokens).  Returns `none` where `float` raises `ValueError`. -/
def pyFloatCore (l : List Char) : Option ℚ :=
  let d1 := l.takeWhile isDigitCh
  match l.dropWhile isDigitCh with
  | [] => if d1 = [] then none else some (natOfDigits d1)
  | '.' :: r2 =>
    let d2 := r2.takeWhile isDigitCh
    if r2.dropWhile isDigitCh ≠ [] then none
    else if d1 = [] ∧ d2 = [] then none
    else some (natOfDigits d1 + fracOfDigits d2)
  | _ => none

def pyFloat (l : List Char) : Option ℚ :=
  match l with
  | '-' :: rest => (pyFloatCore rest).map (fun q => -q)
  | '+' :: rest => pyFloatCore rest
  | l => pyFloatCore l

/-- `parse_money_any` from `parsing_recibo.py`, string branch:
strip, keep `[0-9,.\-]`, and when a comma is present drop the dots and
use the comma as decimal separator. -/
def parseMoneyAny (s : String) : Option ℚ :=
  let t := pyStripList s.data
  if t = [] then none
  else
    let t := t.filter (fun c => isDigitCh c || c = ',' || c = '.' || c = '-')
    if t = [] then none
    else if t.contains ',' then
      pyFloat ((t.filter (· ≠ '.')).map (fun c => if c = ',' then '.' else c))
    else pyFloat t

/-- `_to_float` from `matching.py` (the string branch; `None` maps to
`none`). -/
def toFloatOpt (v : Option String) : Option ℚ :=
  match v with
  | none => none
  | some s =>
    let t := pyStripList s.data
    let t := t.filter (fun c => isDigitCh c || c = '.' || c = ',' || c = '-')
    if t = [] then none
    else if t.contains ',' then
      pyFloat ((t.filter (· ≠ '.')).map (fun c => if c = ',' then '.' else c))
    else pyFloat t

/-! ## `parsing_recibo.py`: the pay-event record -/

/-- One ledger event, the dict
`{"codigo", "descricao", "referencia", "provento", "desconto"}`. -/
structure Evento where
  codigo : Option String
  descricao : Option String
  referencia : Option String
  provento : Option ℚ
  desconto : Option ℚ
deriving DecidableEq

/-! ## `parsing_recibo.py`: deterministic extraction (`_regex_guess`) -/

/-- `MONEY_RE.fullmatch`: `(?:\d{1,3}(?:\.\d{3})*|\d+),\d{2}`. -/
def moneyGroups : List Char → Bool
  | [] => true
  | '.' :: a :: b :: c :: rest =>
    isDigitCh a && isDigitCh b && isDigitCh c && moneyGroups rest
  | _ => false

def isMoneyTok (l : List Char) : Bool :=
  match l.reverse with
  | b :: a :: ',' :: revFront =>
    let front := revFront.reverse
    isDigitCh a && isDigitCh b &&
      ((front ≠ [] && front.all isDigitCh) ||
        (let d1 := front.takeWhile isDigitCh
         decide (1 ≤ d1.length) && decide (d1.length ≤ 3) &&
           moneyGroups (front.dropWhile isDigitCh)))
  | _ => false

/-- `re.fullmatch(r"\d{1,2}:\d{2}", tok)`. -/
def isTimeTok (l : List Char) : Bool :=
  let d1 := l.takeWhile isDigitCh
  (decide (1 ≤ d1.length) && decide (d1.length ≤ 2)) &&
    match l.dropWhile isDigitCh with
    | ':' :: r2 => decide (r2.length = 2) && r2.all isDigitCh
    | _ => false

/-- `_is_ref_token` from `_regex_guess`. -/
def isRefTok (l : List Char) : Bool :=
  isTimeTok l || isMoneyTok l

/-- The `while len(toks) > 1 and MONEY_RE.fullmatch(toks[-1])` pop loop,
which removes at most two trailing monetary tokens.  Returns the
remaining tokens and the popped tokens in original order. -/
def popTailMoney (toks : List (List Char)) :
    List (List Char) × List (List Char) :=
  match toks.reverse with
  | last1 :: rest1 =>
    if rest1 ≠ [] ∧ isMoneyTok last1 then
      match rest1 with
      | last2 :: rest2 =>
        if rest2 ≠ [] ∧ isMoneyTok last2 then
          (rest2.reverse, [last2, last1])
        else (rest1.reverse, [last1])
      | [] => (rest1.reverse, [last1])
    else (toks, [])
  | [] => (toks, [])

/-- `val if (val or 0) != 0 else None`. -/
def nzOpt (v : Option ℚ) : Option ℚ :=
  match v with
  | some x => if x = 0 then none else some x
  | none => none

/-- Codes forcing the single-value deduction hint inside `_regex_guess`. -/
def regexDiscountCodes : List (List Char) :=
  ["981".data, "998".data, "686".data, "255".data, "8069".data]

/-- The per-line event parser of `_regex_guess` (the body of the
`if in_table:` branch), on the whitespace-split tokens of a line. -/
def parseEventLine (toks : List (List Char)) : Option Evento :=
  if toks.length < 4 then none else
  match toks with
  | [] => none
  | codigo :: _ =>
    let pop := popTailMoney toks
    let toks2 := pop.1
    let tailStr := pop.2
    let tailMoney := tailStr.map (fun t => parseMoneyAny ⟨t⟩)
    if tailStr = [] then none else
    let referencia0 : Option (List Char) :=
      if toks2.length > 1 then toks2.getLast? else none
    let reint :
        Option (List Char) × List (Option ℚ) :=
      match referencia0, tailStr, tailMoney with
      | some r, [m1, _], [_, v2] =>
        if ¬ isRefTok r then (some m1, [v2]) else (referencia0, tailMoney)
      | _, _, _ => (referencia0, tailMoney)
    let referencia := reint.1
    let tailMoney := reint.2
    let toks3 :=
      if referencia.isSome ∧ toks2.length > 1 then toks2.dropLast else toks2
    let descricao : String := pyStrip ⟨joinSpace (toks3.drop 1)⟩
    let descUp := pyUpper descricao
    let descontoHint :=
      "DESC".data.isPrefixOf descUp.data ||
      containsStr descUp "INSS" || containsStr descUp "I.N.S.S" ||
      containsStr descUp "RESSARC" || containsStr descUp "PREJUI" ||
      containsStr descUp "ATRAS" || containsStr descUp "FALTA" ||
      containsStr descUp "MULTA" || containsStr descUp "PENAL" ||
      regexDiscountCodes.contains codigo
    match tailMoney with
    | [v] =>
      if descontoHint then
        some ⟨some ⟨codigo⟩, some descricao, referencia.map (⟨·⟩), none, nzOpt v⟩
      else
        some ⟨some ⟨codigo⟩, some descricao, referencia.map (⟨·⟩), nzOpt v, none⟩
    | [v1, v2] =>
      if descontoHint then
        some ⟨some ⟨codigo⟩, some descricao, referencia.map (⟨·⟩), none, nzOpt v2⟩
      else
        some ⟨some ⟨codigo⟩, some descricao, referencia.map (⟨·⟩), nzOpt v1,
          nzOpt v2⟩
    | _ => none

/-- One alternative of a case-insensitive character-class pattern: each
position lists the characters (already uppercased where applicable) it
accepts. -/
def patPrefix : List (List Char) → List Char → Bool
  | [], _ => true
  | _ :: _, [] => false
  | cs :: ps, c :: l => cs.contains c.toUpper && patPrefix ps l

/-- `re.search` of such a pattern. -/
def patSearch (pat : List (List Char)) (l : List Char) : Bool :=
  l.tails.any (patPrefix pat)

/-- Turn a plain uppercase phrase into a pattern of singleton classes. -/
def patOf (s : String) : List (List Char) :=
  s.data.map (fun c => [c])

/-- `C[oó]digo\s+Descri[cç][aã]o\s+Refer[eê]ncia\s+Vencimentos\s+Descontos`
(IGNORECASE), specialised to whitespace-collapsed lines. -/
def patHeader : List (List Char) :=
  [['C'], ['O', 'Ó', 'ó'], ['D'], ['I'], ['G'], ['O'], [' ']] ++
  [['D'], ['E'], ['S'], ['C'], ['R'], ['I'], ['C', 'Ç', 'ç'],
    ['A', 'Ã', 'ã'], ['O'], [' ']] ++
  [['R'], ['E'], ['F'], ['E'], ['R'], ['E', 'Ê', 'ê'], ['N'], ['C'], ['I'],
    ['A'], [' ']] ++
  patOf "VENCIMENTOS" ++ [[' ']] ++ patOf "DESCONTOS"

/-- `Valor\s+L[ií]quido` (IGNORECASE), collapsed. -/
def patValorLiquido : List (List Char) :=
  patOf "VALOR " ++ [['L'], ['I', 'Í', 'í']] ++ patOf "QUIDO"

def isHeaderLine (s : List Char) : Bool :=
  patSearch patHeader s

def isTermLine (s : List Char) : Bool :=
  patSearch (patOf "TOTAL DE VENCIMENTOS") s ||
  patSearch (patOf "TOTAL DE DESCONTOS") s ||
  patSearch patValorLiquido s

/-- The line scan of `_regex_guess` (lines 140–235): track `in_table` /
`done_first_copy`, collect events from table lines. -/
def scanLines : List (List Char) → Bool → Bool → List Evento → List Evento
  | [], _, _, acc => acc
  | ln :: rest, inT, doneF, acc =>
    let toks := splitWs ln
    if toks = [] then scanLines rest inT doneF acc
    else
      let s := joinSpace toks
      if isHeaderLine s then
        if doneF then acc else scanLines rest true doneF acc
      else if inT && isTermLine s then
        scanLines rest false (doneF || acc ≠ []) acc
      else if inT then
        match parseEventLine toks with
        | some e => scanLines rest inT doneF (acc ++ [e])
        | none => scanLines rest inT doneF acc
      else scanLines rest inT doneF acc

/-- The order-preserving first-occurrence dedup of `_regex_guess`
(the key is the whole five-field record). -/
def dedupGo : List Evento → List Evento → List Evento
  | _, [] => []
  | seen, e :: rest =>
    if e ∈ seen then dedupGo seen rest
    else e :: dedupGo (e :: seen) rest

def dedupEventos (l : List Evento) : List Evento :=
  dedupGo [] l

/-- The `eventos` result of `_regex_guess` on a page text. -/
def regexGuessEventos (text : String) : List Evento :=
  dedupEventos (scanLines (splitOnCharL '\n' text.data) false false [])

/-! ## `parsing_recibo.py`: classification and reconciliation
(`_post_process_eventos`) -/

/-- `CODE_HINT`: known event codes mapped to `"P"` (earning) or `"D"`
(deduction). -/
def codeHint : List (String × String) :=
  [("8781", "P"), ("8786", "P"), ("8808", "D"), ("250", "P"), ("854", "P"),
   ("150", "P"), ("687", "P"), ("25", "P"), ("940", "P"), ("995", "P"),
   ("8112", "P"), ("8189", "P"), ("990", "P"), ("991", "D"), ("240", "D"),
   ("998", "D"), ("821", "D"), ("981", "D"), ("686", "D"), ("8069", "D"),
   ("681", "D"), ("255", "D")]

def codeHintGet (c : String) : Option String :=
  codeHint.lookup c

/-- `DISCOUNT_KEYWORDS`. -/
def discountKeywords : List String :=
  ["INSS", "I.N.S.S", "DESC", "DESCONTO", "ATRAS", "FALTA", "MULTA",
   "PENAL", "RESSARC", "PREJUI", "ADIANT", "VALE", "PROCESSO"]

def anyKeyword (descUp : String) : Bool :=
  discountKeywords.any (fun k => containsStr descUp k)

/-- `is_discount` of `_post_process_eventos`. -/
def isDiscountEv (codigo descUp : String) : Bool :=
  match codeHintGet codigo with
  | some hint =>
    if hint = "D" then true
    else if hint = "P" then false
    else anyKeyword descUp
  | none => anyKeyword descUp

def evCodigo (e : Evento) : String :=
  pyStrip (e.codigo.getD "")

def evDescUp (e : Evento) : String :=
  pyUpper (pyStrip (e.descricao.getD ""))

/-- Step 1 of `_post_process_eventos` on one event: the three move/drop
rules, then zero-to-null normalisation.  Only `provento` / `desconto`
change. -/
def step1ev (e : Evento) : Evento :=
  let codigo := evCodigo e
  let descUp := evDescUp e
  let pd0 : Option ℚ × Option ℚ :=
    if e.provento ≠ none ∧ e.desconto = none ∧ isDiscountEv codigo descUp then
      (none, e.provento)
    else (e.provento, e.desconto)
  let pd1 : Option ℚ × Option ℚ :=
    if pd0.2 ≠ none ∧ pd0.1 = none ∧ codeHintGet codigo = some "P" then
      (pd0.2, none)
    else pd0
  let p2 : Option ℚ :=
    if pd1.1 ≠ none ∧ pd1.2 ≠ none ∧ isDiscountEv codigo descUp then none
    else pd1.1
  { e with
    provento := if p2 = some 0 then none else p2
    desconto := if pd1.2 = some 0 then none else pd1.2 }

/-- The ambiguity test of `_post_process_eventos`: exactly one amount
after step 1, no code hint, no deduction keyword. -/
def ambFlagEv (e : Evento) : Bool :=
  let e' := step1ev e
  (e'.provento.isSome != e'.desconto.isSome) &&
    (codeHintGet (evCodigo e)).isNone && ! anyKeyword (evDescUp e)

/-- Indices appended to `ambiguous_idx` (the index each event receives in
`out`). -/
def ambIdx (eventos : List Evento) : List ℕ :=
  (List.range eventos.length).filter (fun i =>
    match eventos[i]? with
    | some e => ambFlagEv e
    | none => false)

def sumProv (l : List Evento) : ℚ :=
  (l.map (fun e => e.provento.getD 0)).sum

def sumDesc (l : List Evento) : ℚ :=
  (l.map (fun e => e.desconto.getD 0)).sum

/-- The reconciliation objective: total absolute deviation from the
declared totals, a missing total contributing zero. -/
def objective (tv td : Option ℚ) (sv sd : ℚ) : ℚ :=
  (match tv with | some t => |t - sv| | none => 0) +
  (match td with | some t => |t - sd| | none => 0)

/-- The mutable state of the reconciliation loop: the event list and the
tracked `sv`, `sd`, `best` values. -/
structure RecState where
  out : List Evento
  sv : ℚ
  sd : ℚ
  best : ℚ
deriving DecidableEq

/-- One candidate flip of the greedy loop (the body of
`for idx in ambiguous_idx`). -/
def flipStep (tv td : Option ℚ) (acc : RecState × Bool) (idx : ℕ) :
    RecState × Bool :=
  let st := acc.1
  match st.out[idx]? with
  | none => acc
  | some e =>
    match e.provento, e.desconto with
    | some pv, none =>
      let csv := st.sv - pv
      let csd := st.sd + pv
      let cand := objective tv td csv csd
      if cand + 1 / 100 < st.best then
        (⟨st.out.set idx { e with provento := none, desconto := some pv },
          csv, csd, cand⟩, true)
      else acc
    | none, some dc =>
      let csv := st.sv + dc
      let csd := st.sd - dc
      let cand := objective tv td csv csd
      if cand + 1 / 100 < st.best then
        (⟨st.out.set idx { e with provento := some dc, desconto := none },
          csv, csd, cand⟩, true)
      else acc
    | _, _ => acc

/-- One full pass over the ambiguous indices (`improved := False` then the
`for` loop). -/
def onePass (tv td : Option ℚ) (amb : List ℕ) (st : RecState) :
    RecState × Bool :=
  amb.foldl (flipStep tv td) (st, false)

/-- The `while improved:` loop.  The fuel argument only bounds the number
of passes; the termination theorem below shows that with the fuel used by
`postProcessEventos` the loop always reaches the state where no flip
improves, i.e. exactly the exit condition of the source's `while`. -/
def loopFuel (tv td : Option ℚ) (amb : List ℕ) : ℕ → RecState → RecState
  | 0, st => st
  | n + 1, st =>
    let p := onePass tv td amb st
    if p.2 then loopFuel tv td amb n p.1 else p.1

/-- Fuel sufficient for the loop: every accepted flip lowers `best` by
more than `1/100`, so `⌈100 * best⌉ + 1` passes always reach the
fixpoint. -/
def recFuel (best : ℚ) : ℕ :=
  (⌈(100 : ℚ) * best⌉).toNat + 1

/-- `_post_process_eventos`. -/
def postProcessEventos (eventos : List Evento) (tv td : Option ℚ) :
    List Evento :=
  if eventos = [] then eventos
  else
    let out0 := eventos.map step1ev
    let amb := ambIdx eventos
    if tv ≠ none ∨ td ≠ none then
      let sv := sumProv out0
      let sd := sumDesc out0
      let best := objective tv td sv sd
      (loopFuel tv td amb (recFuel best) ⟨out0, sv, sd, best⟩).out
    else out0

/-- The mismatch objective of an event list against declared totals. -/
def mismatch (tv td : Option ℚ) (l : List Evento) : ℚ :=
  objective tv td (sumProv l) (sumDesc l)

/-! ## `app.py`: the complement computation (`valor_a_pagar` block,
lines 177–246) -/

def salarioBaseCodes : List String := ["8781", "8786"]

def inssCodes : List String := ["998", "821"]

/-- `float(referencia.replace(".", "").replace(",", "."))`, `None` on
`ValueError`. -/
def parseRefDias (s : String) : Option ℚ :=
  pyFloat ((s.data.filter (· ≠ '.')).map (fun c => if c = ',' then '.' else c))

/-- `salario_base_clt`: earnings under the base-salary codes. -/
def salarioBaseClt (eventos : List Evento) : ℚ :=
  (eventos.map (fun e =>
    if salarioBaseCodes.contains (evCodigo e) then e.provento.getD 0 else 0)).sum

/-- `ref_base_dias` before the fallback: the first successfully parsed
non-empty `referencia` of a base-salary event (a failed parse leaves it
`None`, letting a later event retry). -/
def refBaseDias (eventos : List Evento) : Option ℚ :=
  eventos.foldl (fun acc e =>
    match acc with
    | some v => some v
    | none =>
      let ref := pyStrip (e.referencia.getD "")
      if salarioBaseCodes.contains (evCodigo e) ∧ ref ≠ "" then
        parseRefDias ref
      else none) none

/-- `verba_981`: deductions under code 981. -/
def verba981 (eventos : List Evento) : ℚ :=
  (eventos.map (fun e =>
    if evCodigo e = "981" then e.desconto.getD 0 else 0)).sum

/-- `inss`: deductions under codes 998 / 821. -/
def inssTotal (eventos : List Evento) : ℚ :=
  (eventos.map (fun e =>
    if inssCodes.contains (evCodigo e) then e.desconto.getD 0 else 0)).sum

/-- `ref_8781 = float(ref_base_dias or 30.0)` after the `None`→30
fallback: a zero reference also falls back to 30. -/
def ref8781 (eventos : List Evento) : ℚ :=
  let r := (refBaseDias eventos).getD 30
  if r = 0 then 30 else r

/-- `outros_proventos`: non-zero earnings outside the base-salary codes. -/
def outrosProventos (eventos : List Evento) : ℚ :=
  (eventos.map (fun e =>
    let pv := e.provento.getD 0
    if pv ≠ 0 ∧ ¬ salarioBaseCodes.contains (evCodigo e) then pv else 0)).sum

/-- `outros_descontos`: non-zero deductions outside 981 / 998 / 821. -/
def outrosDescontos (eventos : List Evento) : ℚ :=
  (eventos.map (fun e =>
    let dc := e.desconto.getD 0
    if dc ≠ 0 ∧ ¬ ("981" :: inssCodes).contains (evCodigo e) then dc
    else 0)).sum

/-- `bruto_proporcional`. -/
def brutoProporcional (eventos : List Evento) (brutoRef : Option ℚ) :
    Option ℚ :=
  brutoRef.map (fun b => b * (ref8781 eventos / 30))

/-- The fixed `regra_aplicada` string of the computation. -/
def regraAplicada : String :=
  "DEMONSTRATIVO: Bruto(planilha proporcional) + Outros Proventos - 981 - INSS - Outros Descontos"

/-- `valor_a_pagar`: the single rule of `app.py`, floored at zero; `none`
when the reference gross is unavailable.  The declared net (`liquido`)
and the reference-row `status` are taken by the surrounding code but are
never read by the computation. -/
def valorAPagar (eventos : List Evento) (brutoRef : Option ℚ)
    (liquido : Option ℚ) (status : String) : Option ℚ :=
  match brutoRef with
  | none => none
  | some b =>
    let prop := b * (ref8781 eventos / 30)
    let v := prop + outrosProventos eventos - verba981 eventos -
      inssTotal eventos - outrosDescontos eventos
    some (if v < 0 then 0 else v)

/-! ## `matching.py`: name normalisation (`_norm_nome`) -/

/-- The character class `[A-Za-z0-9 ]` of the first `re.sub`. -/
def isAlnumSpace (c : Char) : Bool :=
  (65 ≤ c.toNat && c.toNat ≤ 90) || (97 ≤ c.toNat && c.toNat ≤ 122) ||
  (48 ≤ c.toNat && c.toNat ≤ 57) || c.toNat = 32

/-- Characters the full normalisation can output: uppercase basic latin
letters, digits, and the space. -/
def isCanonCh (c : Char) : Bool :=
  (65 ≤ c.toNat && c.toNat ≤ 90) || (48 ≤ c.toNat && c.toNat ≤ 57) ||
  c.toNat = 32

/-- `re.sub` with a one-character replacement of every maximal run of
characters satisfying `p` by a single `' '`.  The flag records whether
the previous character was inside such a run. -/
def subRuns (p : Char → Bool) : Bool → List Char → List Char
  | _, [] => []
  | inRun, c :: cs =>
    if p c then
      if inRun then subRuns p true cs else ' ' :: subRuns p true cs
    else c :: subRuns p false cs

/-- `_norm_nome` with the Unicode NFKD decomposition and the
combining-class test as parameters: decompose, drop combining marks,
replace non-`[A-Za-z0-9 ]` runs by a space, collapse whitespace, strip,
uppercase. -/
def normNomeList (nfkd : List Char → List Char) (comb : Char → Bool)
    (l : List Char) : List Char :=
  let s1 := nfkd l
  let s2 := s1.filter (fun c => ! comb c)
  let s3 := subRuns (fun c => ! isAlnumSpace c) false s2
  let s4 := subRuns isWsChar false s3
  (pyStripList s4).map Char.toUpper

def normNomeS (nfkd : List Char → List Char) (comb : Char → Bool)
    (s : String) : String :=
  ⟨normNomeList nfkd comb s.data⟩

/-- `_norm_nome` on the `Optional[str]` argument (`if not s: return ""`). -/
def normNomeOpt (nfkd : List Char → List Char) (comb : Char → Bool)
    (x : Option String) : String :=
  match x with
  | none => ""
  | some s => if s = "" then "" else normNomeS nfkd comb s

/-! ## `matching.py`: fuzzy scoring (`_tokens`, `_score_name`) -/

/-- `_tokens`: split on single spaces, drop empty pieces. -/
def tokensOf (s : String) : List String :=
  ((splitOnCharL ' ' s.data).map (fun l => (⟨l⟩ : String))).filter (· ≠ "")

/-- `_score_name` on already-normalised names. -/
def scoreName (a b : String) : ℚ :=
  if a = "" ∨ b = "" then 0
  else if a = b then 1
  else if containsStr b a ∨ containsStr a b then 92 / 100
  else
    let ta := (tokensOf a).toFinset
    let tb := (tokensOf b).toFinset
    if ta = ∅ ∨ tb = ∅ then 0
    else
      let inter := (ta ∩ tb).card
      let union := (ta ∪ tb).card
      let jacc : ℚ := if union ≠ 0 then (inter : ℚ) / (union : ℚ) else 0
      let firstBonus : ℚ :=
        match tokensOf a, tokensOf b with
        | ha :: _, hb :: _ => if ha = hb then 12 / 100 else 0
        | _, _ => 0
      min (88 / 100 * jacc + firstBonus) (99 / 100)

/-! ## `matching.py`: reference lookup (`find_colaborador_ref`) -/

/-- One reference-table row after `load_salario_real_xlsx`: the derived
columns `__NOME_COL__`, `NOME_NORM`, `__BRUTO_COL__`, `CPF_DIG`,
`MAT_NORM`, plus the optional status / department / role cells (`none`
when the table lacks the column). -/
structure RefRow where
  nomeCol : String
  nomeNorm : String
  brutoCol : Option String
  cpfDig : String
  matNorm : String
  status : Option String
  depto : Option String
  cargo : Option String
deriving DecidableEq

/-- The result dict of `find_colaborador_ref`. -/
structure MatchOut where
  brutoReferencial : Option ℚ
  status : Option String
  departamento : Option String
  cargo : Option String
  nome : Option String
  cpf : Option String
  matricula : Option String
  matchScore : Option ℚ
  matchNomePlanilha : Option String
  matchMetodo : Option String
deriving DecidableEq

def emptyOut (cpf matricula : Option String) : MatchOut :=
  ⟨none, none, none, none, none, cpf, matricula, none, none, none⟩

/-- Building the successful result dict from a row. -/
def buildOut (r : RefRow) (fallbackNome : Option String) (score : ℚ)
    (metodo : String) (nomePlan : String) (cpf mat : Option String) :
    MatchOut :=
  { brutoReferencial := toFloatOpt r.brutoCol
    status := r.status.map pyStrip
    departamento := r.depto.map pyStrip
    cargo := r.cargo.map pyStrip
    nome :=
      if pyStrip r.nomeCol = "" then fallbackNome
      else some (pyTitle (pyStrip r.nomeCol))
    cpf := cpf
    matricula := mat
    matchScore := some score
    matchNomePlanilha := some (pyStrip nomePlan)
    matchMetodo := some metodo }

/-- The running best of the fuzzy scan (`if best is None or s > best[1]`:
the earliest row of maximal score wins). -/
def bestCandidate (a : String) (rows : List RefRow) :
    Option (RefRow × ℚ) :=
  rows.foldl (fun best r =>
    let s := scoreName a r.nomeNorm
    match best with
    | none => some (r, s)
    | some b => if s > b.2 then some (r, s) else best) none

/-- Stable descending insertion by score (the extensional behaviour of
Python's stable `sort(key=score, reverse=True)`). -/
def insertDesc (x : RefRow × ℚ) : List (RefRow × ℚ) → List (RefRow × ℚ)
  | [] => [x]
  | y :: ys => if x.2 > y.2 then x :: y :: ys else y :: insertDesc x ys

def sortScoreDesc (l : List (RefRow × ℚ)) : List (RefRow × ℚ) :=
  l.foldl (fun acc x => insertDesc x acc) []

/-- `top_candidates`. -/
def topCandidates (nfkd : List Char → List Char) (comb : Char → Bool)
    (rows : List RefRow) (nome : String) (k : ℕ) : List (RefRow × ℚ) :=
  let a := normNomeOpt nfkd comb (some nome)
  if a = "" then []
  else
    (sortScoreDesc (rows.filterMap (fun r =>
      let s := scoreName a r.nomeNorm
      if s > 0 then some (r, s) else none))).take k

/-- Step 3 of `find_colaborador_ref`: fuzzy name match, optionally
refined by the disambiguation oracle. -/
def findStep3 (nfkd : List Char → List Char) (comb : Char → Bool)
    (rows : List RefRow) (cpf nome matricula : Option String)
    (gptFn : Option (String → List String → Option String)) : MatchOut :=
  let a := normNomeOpt nfkd comb nome
  match bestCandidate a rows with
  | none => emptyOut cpf matricula
  | some best =>
    if best.2 < 7 / 10 then emptyOut cpf matricula
    else
      let chosen : RefRow × ℚ × String :=
        match gptFn with
        | some fn =>
          if best.2 < 82 / 100 then
            let cands := topCandidates nfkd comb rows (nome.getD "") 12
            let candNames := cands.map (fun c => c.1.nomeCol)
            match fn (nome.getD "") candNames with
            | some picked =>
              if picked ≠ "" then
                match cands.find? (fun c =>
                    pyUpper (pyStrip c.1.nomeCol) = pyUpper (pyStrip picked))
                  with
                | some c =>
                  (c.1, max best.2 (95 / 100), "gpt_disambiguation")
                | none => (best.1, best.2, "local_fuzzy")
              else (best.1, best.2, "local_fuzzy")
            | none => (best.1, best.2, "local_fuzzy")
          else (best.1, best.2, "local_fuzzy")
        | none => (best.1, best.2, "local_fuzzy")
      buildOut chosen.1 nome chosen.2.1 chosen.2.2 chosen.1.nomeCol cpf
        matricula

/-- Step 2 of `find_colaborador_ref`: deterministic registration-id
match, falling through to step 3. -/
def findStep2 (nfkd : List Char → List Char) (comb : Char → Bool)
    (rows : List RefRow) (cpf nome matricula : Option String)
    (gptFn : Option (String → List String → Option String)) : MatchOut :=
  let mat := match matricula with | some m => pyStrip m | none => ""
  if mat ≠ "" ∧ rows.any (fun r => r.matNorm ≠ "") then
    let hit := rows.filter (fun r => pyStrip r.matNorm = mat)
    match hit with
    | [r] => buildOut r nome 1 "matricula" r.nomeCol cpf matricula
    | _ => findStep3 nfkd comb rows cpf nome matricula gptFn
  else findStep3 nfkd comb rows cpf nome matricula gptFn

/-- `find_colaborador_ref`: empty-table guard, then the deterministic CPF
step, then steps 2 and 3. -/
def findColaboradorRef (nfkd : List Char → List Char) (comb : Char → Bool)
    (rows : List RefRow) (cpf nome matricula : Option String)
    (gptFn : Option (String → List String → Option String)) : MatchOut :=
  if rows = [] then emptyOut cpf matricula
  else
    let cpfD := pyDigits cpf
    if cpfD ≠ "" ∧ rows.any (fun r => r.cpfDig ≠ "") then
      let hit := rows.filter (fun r => r.cpfDig = cpfD)
      match hit with
      | [r] => buildOut r nome 1 "cpf" r.nomeCol cpf matricula
      | _ => findStep2 nfkd comb rows cpf nome matricula gptFn
    else findStep2 nfkd comb rows cpf nome matricula gptFn

/-! ## Auxiliary relations used by the theorems -/

/-- Zero-to-null normalisation of a single amount. -/
def znorm (x : Option ℚ) : Option ℚ :=
  if x = some 0 then none else x

/-- How one reconciled event may differ from its input event: zero
amounts nulled, the single remaining amount possibly moved to the other
field, or — for a both-amount event classified as deduction — the
`provento` dropped. -/
def AllowedDiff (e e' : Evento) : Prop :=
  (e'.provento = znorm e.provento ∧ e'.desconto = znorm e.desconto) ∨
  (∃ v, znorm e.provento = some v ∧ znorm e.desconto = none ∧
    e'.provento = none ∧ e'.desconto = some v) ∨
  (∃ v, znorm e.desconto = some v ∧ znorm e.provento = none ∧
    e'.desconto = none ∧ e'.provento = some v) ∨
  (e'.provento = none ∧ e'.desconto = znorm e.desconto)

/-- Modelled from the claim's words, generously: each amount of the
output event is the old value of one of the two fields, or `none` when
the old value was zero or was moved to the other field ("an amount moved
between them, or a zero amount replaced by null"). -/
def claimC10Allows (e e' : Evento) : Prop :=
  (e'.provento = e.provento ∨ e'.provento = e.desconto ∨
    (e'.provento = none ∧ (e.provento = some 0 ∨ e'.desconto = e.provento))) ∧
  (e'.desconto = e.desconto ∨ e'.desconto = e.provento ∨
    (e'.desconto = none ∧ (e.desconto = some 0 ∨ e'.provento = e.desconto)))

/-- Reachability by the greedy loop's polarity flips: unchanged, or the
single amount moved to the other field. -/
def FlipReach (a b : Evento) : Prop :=
  b = a ∨
  (∃ v, a.provento = some v ∧ a.desconto = none ∧
    b = { a with provento := none, desconto := some v }) ∨
  (∃ v, a.desconto = some v ∧ a.provento = none ∧
    b = { a with provento := some v, desconto := none })

/-- Pointwise lifting of a relation to `Option`. -/
def optRel (R : Evento → Evento → Prop) :
    Option Evento → Option Evento → Prop
  | none, none => True
  | some a, some b => R a b
  | _, _ => False

/-- Invariant of the reconciliation loop relative to the classified list
`L₀`: every position is flip-reachable from `L₀`, and positions outside
the ambiguous set are untouched. -/
def LoopInv (amb : List ℕ) (L₀ out : List Evento) : Prop :=
  (∀ i : ℕ, optRel FlipReach L₀[i]? out[i]?) ∧
  (∀ i : ℕ, i ∉ amb → out[i]? = L₀[i]?)

/-- Invariant tying the tracked sums and objective to the event list. -/
def SumInv (tv td : Option ℚ) (st : RecState) : Prop :=
  st.sv = sumProv st.out ∧ st.sd = sumDesc st.out ∧
  st.best = objective tv td st.sv st.sd

/-- The Jaccard similarity of the whitespace token sets (`0` when the
union is empty), as used inside `_score_name`. -/
def jaccTok (a b : String) : ℚ :=
  let ta := (tokensOf a).toFinset
  let tb := (tokensOf b).toFinset
  if (ta ∪ tb).card ≠ 0 then ((ta ∩ tb).card : ℚ) / ((ta ∪ tb).card : ℚ)
  else 0

/-! ## Concrete inputs used by the claim evaluations -/

/-- End-to-end scenario 1: base-salary earning 3000 under code 8781 and
a withholding (INSS, code 998) deduction of 300. -/
def eventosC1 : List Evento :=
  [⟨some "8781", some "SALARIO CONTRATUAL", some "30,00", some 3000, none⟩,
   ⟨some "998", some "INSS", none, none, some 300⟩]

/-- End-to-end scenario 2: a base-salary earning only, no advance. -/
def eventosC5 : List Evento :=
  [⟨some "8781", some "SALARIO CONTRATUAL", some "30,00", some 3000, none⟩]

/-- Page text with the event-table header and the scenario-4 ledger line
twice. -/
def textC3 : String :=
  "Código Descrição Referência Vencimentos Descontos\n8781 SALARIO CONTRATUAL. 30,00 1.518,00\n8781 SALARIO CONTRATUAL. 30,00 1.518,00"

/-- A raw event carrying both a non-zero earning and a non-zero
deduction under an earning-hinted code. -/
def evBoth : Evento :=
  ⟨some "150", some "HORAS EXTRAS", none, some 100, some 50⟩

/-- A raw event carrying both amounts under a deduction-hinted code. -/
def evBothDisc : Evento :=
  ⟨some "998", some "INSS", none, some 100, some 50⟩

/-- Its reconciled form: the `provento` is dropped. -/
def evBothDiscRes : Evento :=
  ⟨some "998", some "INSS", none, none, some 50⟩

/-- An INSS event extracted with its amount in the earning column. -/
def evInssProv : Evento :=
  ⟨some "998", some "INSS", none, some 100, none⟩

/-- An ambiguous single-amount event (no code hint, no keyword). -/
def evAmb : Evento :=
  ⟨some "1", some "ABC", none, some 50, none⟩

/-- The reconciliation state `_post_process_eventos` builds for
`[evAmb]` with declared totals `(none, 50)`. -/
def stAmb : RecState :=
  ⟨[step1ev evAmb], 50, 0, objective none (some 50) 50 0⟩

/-- The reconciled form of `evAmb` against declared deductions 50. -/
def evAmbRes : Evento :=
  ⟨some "1", some "ABC", none, none, some 50⟩

/-- The state after the loop's first (only) accepted flip on `stAmb`. -/
def stAmbFlipped : RecState :=
  ⟨[⟨some "1", some "ABC", none, none, some 50⟩], 0, 50, 0⟩

/-- Two reference rows sharing one national id. -/
def rowDupA : RefRow :=
  ⟨"Maria A", "MARIA A", some "1000", "111", "", none, none, none⟩

def rowDupB : RefRow :=
  ⟨"Maria B", "MARIA B", some "2000", "111", "", none, none, none⟩

/-! ## Theorems

The rational operations of Batteries are `irreducible` by default; the
concrete evaluations below need them to reduce. -/

attribute [local semireducible] Rat.add Rat.mul Rat.sub Rat.inv
  Rat.ofScientific

/-- `x if x < 0 else 0` is `max 0 x`. -/
theorem ite_lt_zero_max (v : ℚ) : (if v < 0 then (0 : ℚ) else v) = max 0 v := by
  rcases lt_or_le v 0 with h | h
  · rw [if_pos h, max_eq_left h.le]
  · rw [if_neg (not_lt.mpr h), max_eq_right h]

/-! ## C1 / C5: the complement rule of `app.py` -/

/-- C1, counterexample: at scenario 1 (`reference_gross = 5000`,
`declared_net = 0`, status `"ATIVO"`, base-salary earning 3000,
withholding deduction 300) the code computes `some 4700`, not the
`some 1700` the claimed special rule
`proportional_gross - contracted_salary - withholding` would give. -/
theorem c1_cex :
    valorAPagar eventosC1 (some 5000) (some 0) "ATIVO" = some 4700 ∧
    valorAPagar eventosC1 (some 5000) (some 0) "ATIVO" ≠ some 1700 := by
  constructor
  · decide
  · decide

/-- C1, amended: `app.py` has no special-case switch: the computation
never reads the declared net or the status, it always applies the single
rule `proportional_gross + other_earnings - advance(981) - INSS(998/821)
- other_deductions`, floored at zero; at the scenario-1 inputs the
payable is 4700.00. -/
theorem c1_uniform_rule :
    (∀ evts brutoRef l₁ s₁ l₂ s₂,
      valorAPagar evts brutoRef l₁ s₁ = valorAPagar evts brutoRef l₂ s₂) ∧
    (∀ evts (b : ℚ) l s,
      valorAPagar evts (some b) l s =
        some (max 0 (b * (ref8781 evts / 30) + outrosProventos evts -
          verba981 evts - inssTotal evts - outrosDescontos evts))) ∧
    valorAPagar eventosC1 (some 5000) (some 0) "ATIVO" = some 4700 := by
  refine ⟨fun _ _ _ _ _ _ => rfl, fun evts b l s => ?_, by decide⟩
  show some (if _ < (0 : ℚ) then (0 : ℚ) else _) = some _
  rw [ite_lt_zero_max]

/-- C5, counterexample: at scenario 2 (`reference_gross = 4000`,
`declared_net = 3200`, status `"ATIVO"`, no advance) the code computes
`some 4000`, not `reference_gross - declared_net = 800`: the declared
net is never subtracted. -/
theorem c5_cex :
    valorAPagar eventosC5 (some 4000) (some 3200) "ATIVO" = some 4000 ∧
    valorAPagar eventosC5 (some 4000) (some 3200) "ATIVO" ≠ some 800 := by
  constructor
  · decide
  · decide

/-- C5, amended: the standard rule of `app.py` ignores the declared net
entirely (`payable = proportional_gross + other_earnings - deductions`),
so scenario 2 yields 4000.00, the proportional reference gross. -/
theorem c5_standard_rule :
    (∀ evts brutoRef s l₁ l₂,
      valorAPagar evts brutoRef l₁ s = valorAPagar evts brutoRef l₂ s) ∧
    valorAPagar eventosC5 (some 4000) (some 3200) "ATIVO" = some 4000 := by
  exact ⟨fun _ _ _ _ _ => rfl, by decide⟩

/-! ## C3: the single-column ledger-line parse -/

/-- C3: on a page whose event table holds the line
`"8781 SALARIO CONTRATUAL. 30,00 1.518,00"` twice, the extractor yields
exactly one event with code `"8781"`, reference `"30,00"`, earning
`1518`, no deduction — but description `"SALARIO"`: in the single-column
reinterpretation the code still removes the final description token
(`"CONTRATUAL."`), although the reference it meant to remove is the
popped monetary token. -/
theorem c3_eval :
    regexGuessEventos textC3 =
      [⟨some "8781", some "SALARIO", some "30,00", some 1518, none⟩] ∧
    (some "SALARIO" : Option String) ≠ some "SALARIO CONTRATUAL." := by
  constructor
  · decide
  · decide

/-! ## C2 / C4 / C10: counterexamples on the reconciler -/

/-- C2, counterexample: an event arriving with a non-zero earning AND a
non-zero deduction under the earning-hinted code 150 passes through the
reconciler unchanged, so the returned list carries an event with both
amounts non-null and non-zero. -/
theorem c2_cex :
    postProcessEventos [evBoth] none none = [evBoth] ∧
    evBoth.provento = some 100 ∧ evBoth.desconto = some 50 ∧
    (100 : ℚ) ≠ 0 ∧ (50 : ℚ) ≠ 0 := by
  refine ⟨by decide, by decide, by decide, by decide, by decide⟩

/-- C4, counterexample: an INSS event extracted with its amount in the
earning column has input mismatch 0 against declared earnings 100, but
the forced classification moves the amount to the deduction side and no
flip can move it back (code 998 is hinted), so the output mismatch is
100 — the claimed comparison against the raw input list fails. -/
theorem c4_cex :
    ¬ mismatch (some 100) none
        (postProcessEventos [evInssProv] (some 100) none) ≤
      mismatch (some 100) none [evInssProv] ∧
    mismatch (some 100) none [evInssProv] = 0 ∧
    mismatch (some 100) none
        (postProcessEventos [evInssProv] (some 100) none) = 100 := by
  refine ⟨by decide, by decide, by decide⟩

/-- C10, counterexample: the event `(provento 100, desconto 50)` under
deduction code 998 is returned as `(none, desconto 50)`: the non-zero
`provento` is dropped, which is neither "an amount moved between them"
nor "a zero amount replaced by null". -/
theorem c10_cex :
    postProcessEventos [evBothDisc] none none = [evBothDiscRes] ∧
    ¬ claimC10Allows evBothDisc evBothDiscRes := by
  refine ⟨by decide, ?_⟩
  simp only [claimC10Allows]
  decide

/-! ## C7: the fuzzy similarity function -/

/-- C7, counterexample: for `"ANA SILVA"` and `"MARIA SILVA"` (distinct,
no substring relation, Jaccard `1/3`, last tokens equal, first tokens
different) the code scores `22/75 ≈ 0.293`; the claimed formula — a
factor in `[0.85, 0.88]` times the Jaccard plus a last-token bonus in
`[0.10, 0.12]`, capped at `0.99` — cannot produce that value: the code
has no last-token bonus. -/
theorem c7_cex :
    scoreName "ANA SILVA" "MARIA SILVA" = 22 / 75 ∧
    (tokensOf "ANA SILVA").getLast? = (tokensOf "MARIA SILVA").getLast? ∧
    (tokensOf "ANA SILVA").head? ≠ (tokensOf "MARIA SILVA").head? ∧
    containsStr "MARIA SILVA" "ANA SILVA" = false ∧
    containsStr "ANA SILVA" "MARIA SILVA" = false ∧
    jaccTok "ANA SILVA" "MARIA SILVA" = 1 / 3 ∧
    ∀ f bl : ℚ, 85 / 100 ≤ f → f ≤ 88 / 100 → 1 / 10 ≤ bl →
      bl ≤ 12 / 100 →
      min (f * jaccTok "ANA SILVA" "MARIA SILVA" + bl) (99 / 100) ≠
        scoreName "ANA SILVA" "MARIA SILVA" := by
  refine ⟨by decide, by decide, by decide, by decide, by decide, by decide,
    ?_⟩
  intro f bl h1 h2 h3 h4
  rw [show jaccTok "ANA SILVA" "MARIA SILVA" = 1 / 3 from by decide,
    show scoreName "ANA SILVA" "MARIA SILVA" = 22 / 75 from by decide]
  have h : (22 : ℚ) / 75 < min (f * (1 / 3) + bl) (99 / 100) :=
    lt_min (by linarith) (by norm_num)
  exact ne_of_gt h

/-- C7, amended: for distinct non-empty normalised names with no
substring relation and non-empty token lists, the score is exactly
`min (0.88 * jaccard + first-token bonus) 0.99`; there is no last-token
bonus, and the first-token bonus is exactly `0.12`. -/
theorem c7_formula (a b : String) (hne : a ≠ b)
    (hsub1 : containsStr b a = false) (hsub2 : containsStr a b = false)
    (hta : tokensOf a ≠ []) (htb : tokensOf b ≠ []) :
    scoreName a b =
      min (88 / 100 * jaccTok a b +
        if (tokensOf a).head? = (tokensOf b).head? then 12 / 100 else 0)
        (99 / 100) := by
  obtain ⟨xa, la, hxa⟩ : ∃ x l, tokensOf a = x :: l := by
    cases h : tokensOf a with
    | nil => exact absurd h hta
    | cons x l => exact ⟨x, l, rfl⟩
  obtain ⟨xb, lb, hxb⟩ : ∃ x l, tokensOf b = x :: l := by
    cases h : tokensOf b with
    | nil => exact absurd h htb
    | cons x l => exact ⟨x, l, rfl⟩
  have ha : a ≠ "" := by
    intro h
    rw [h] at hxa
    simp [tokensOf, splitOnCharL] at hxa
  have hb : b ≠ "" := by
    intro h
    rw [h] at hxb
    simp [tokensOf, splitOnCharL] at hxb
  have hfa : (tokensOf a).toFinset ≠ ∅ := by
    rw [hxa]
    simp
  have hfb : (tokensOf b).toFinset ≠ ∅ := by
    rw [hxb]
    simp
  rw [scoreName, if_neg (by push_neg; exact ⟨ha, hb⟩), if_neg hne,
    if_neg (by rw [hsub1, hsub2]; simp), if_neg (by push_neg; exact ⟨hfa, hfb⟩)]
  rw [jaccTok, hxa, hxb]
  simp only [List.head?_cons, Option.some.injEq]

/-! ## C6: the deterministic id step of `find_colaborador_ref` -/

theorem buildOut_metodo (r : RefRow) (n : Option String) (s : ℚ)
    (m np : String) (c mt : Option String) :
    (buildOut r n s m np c mt).matchMetodo = some m := rfl

theorem buildOut_score (r : RefRow) (n : Option String) (s : ℚ)
    (m np : String) (c mt : Option String) :
    (buildOut r n s m np c mt).matchScore = some s := rfl

/-- The fuzzy step only ever reports no match, a local fuzzy match, or
an oracle disambiguation. -/
theorem findStep3_metodo (nfkd : List Char → List Char) (comb : Char → Bool)
    (rows : List RefRow) (cpf nome matricula : Option String)
    (gptFn : Option (String → List String → Option String)) :
    (findStep3 nfkd comb rows cpf nome matricula gptFn).matchMetodo = none ∨
    (findStep3 nfkd comb rows cpf nome matricula gptFn).matchMetodo =
      some "local_fuzzy" ∨
    (findStep3 nfkd comb rows cpf nome matricula gptFn).matchMetodo =
      some "gpt_disambiguation" := by
  unfold findStep3
  dsimp only
  repeat
    first
      | (left; rfl)
      | (right; left; exact buildOut_metodo ..)
      | (right; right; exact buildOut_metodo ..)
      | split

/-- Step 2 only ever reports no match, a registration-id match, or one
of step 3's outcomes. -/
theorem findStep2_metodo (nfkd : List Char → List Char) (comb : Char → Bool)
    (rows : List RefRow) (cpf nome matricula : Option String)
    (gptFn : Option (String → List String → Option String)) :
    (findStep2 nfkd comb rows cpf nome matricula gptFn).matchMetodo = none ∨
    (findStep2 nfkd comb rows cpf nome matricula gptFn).matchMetodo =
      some "matricula" ∨
    (findStep2 nfkd comb rows cpf nome matricula gptFn).matchMetodo =
      some "local_fuzzy" ∨
    (findStep2 nfkd comb rows cpf nome matricula gptFn).matchMetodo =
      some "gpt_disambiguation" := by
  cases matricula with
  | none =>
    have h3 := findStep3_metodo nfkd comb rows cpf nome none gptFn
    unfold findStep2
    dsimp only
    repeat
      first
        | (right; left; exact buildOut_metodo ..)
        | (rcases h3 with h | h | h <;> rw [h] <;> simp)
        | split
  | some m =>
    have h3 := findStep3_metodo nfkd comb rows cpf nome (some m) gptFn
    unfold findStep2
    dsimp only
    repeat
      first
        | (right; left; exact buildOut_metodo ..)
        | (rcases h3 with h | h | h <;> rw [h] <;> simp)
        | split

/-- C6: with a digits-only id supplied and a non-empty id column, the id
step selects a row exactly when one single row carries the id; a
selection carries score `1.0` and the id method (`"cpf"`), and an
ambiguous id (zero or several rows) makes the resolution fall through to
the later steps unchanged. -/
theorem c6_id_step (nfkd : List Char → List Char) (comb : Char → Bool)
    (rows : List RefRow) (cpf nome matricula : Option String)
    (gptFn : Option (String → List String → Option String))
    (hid : pyDigits cpf ≠ "")
    (hcol : rows.any (fun r => r.cpfDig ≠ "") = true) :
    ((rows.filter (fun r => r.cpfDig = pyDigits cpf)).length = 1 ↔
      (findColaboradorRef nfkd comb rows cpf nome matricula
        gptFn).matchMetodo = some "cpf") ∧
    ((rows.filter (fun r => r.cpfDig = pyDigits cpf)).length = 1 →
      (findColaboradorRef nfkd comb rows cpf nome matricula
        gptFn).matchScore = some 1 ∧
      (findColaboradorRef nfkd comb rows cpf nome matricula
        gptFn).matchMetodo = some "cpf") ∧
    ((rows.filter (fun r => r.cpfDig = pyDigits cpf)).length ≠ 1 →
      findColaboradorRef nfkd comb rows cpf nome matricula gptFn =
        findStep2 nfkd comb rows cpf nome matricula gptFn) := by
  have hrows : ¬ rows = [] := by
    intro h
    rw [h] at hcol
    simp [List.any] at hcol
  have hstep2 : (findStep2 nfkd comb rows cpf nome matricula
      gptFn).matchMetodo ≠ some "cpf" := by
    rcases findStep2_metodo nfkd comb rows cpf nome matricula gptFn with
      h | h | h | h <;> rw [h] <;> simp
  unfold findColaboradorRef
  rw [if_neg hrows, if_pos ⟨hid, hcol⟩]
  cases hhit : rows.filter (fun r => r.cpfDig = pyDigits cpf) with
  | nil =>
    refine ⟨⟨fun h => by simp at h, fun h => absurd h hstep2⟩,
      fun h => by simp at h, fun _ => rfl⟩
  | cons r rest =>
    cases rest with
    | nil =>
      exact ⟨⟨fun _ => buildOut_metodo .., fun _ => rfl⟩,
        fun _ => ⟨buildOut_score .., buildOut_metodo ..⟩,
        fun h => absurd rfl h⟩
    | cons r2 rest2 =>
      refine ⟨⟨fun h => by simp at h, fun h => absurd h hstep2⟩,
        fun h => by simp at h, fun _ => rfl⟩

/-! ## Machinery: the forced-classification step -/

theorem step1ev_codigo (e : Evento) : (step1ev e).codigo = e.codigo := rfl

theorem step1ev_descricao (e : Evento) :
    (step1ev e).descricao = e.descricao := rfl

theorem step1ev_referencia (e : Evento) :
    (step1ev e).referencia = e.referencia := rfl

/-- A code hinted `"P"` is never classified as deduction. -/
theorem isDiscount_of_hintP (c u : String) (h : codeHintGet c = some "P") :
    isDiscountEv c u = false := by
  rw [isDiscountEv, h]
  rfl

/-- Normal form of step 1: which rule fires, in order, and the resulting
amount pair (zero-normalised). -/
theorem step1ev_pd (e : Evento) :
    ((step1ev e).provento, (step1ev e).desconto) =
      if e.provento ≠ none ∧ e.desconto = none ∧
          isDiscountEv (evCodigo e) (evDescUp e) = true then
        (none, znorm e.provento)
      else if e.desconto ≠ none ∧ e.provento = none ∧
          codeHintGet (evCodigo e) = some "P" then
        (znorm e.desconto, none)
      else if e.provento ≠ none ∧ e.desconto ≠ none ∧
          isDiscountEv (evCodigo e) (evDescUp e) = true then
        (none, znorm e.desconto)
      else (znorm e.provento, znorm e.desconto) := by
  unfold step1ev znorm
  dsimp only
  by_cases hD : isDiscountEv (evCodigo e) (evDescUp e) = true <;>
    by_cases hP : codeHintGet (evCodigo e) = some "P" <;>
    cases hpv : e.provento <;> cases hdv : e.desconto
  all_goals
    first
      | exact absurd (isDiscount_of_hintP (evCodigo e) (evDescUp e) hP)
          (by rw [hD]; simp)
      | simp [hD, hP]

/-- Step 1 changes the amounts only in the allowed ways. -/
theorem step1ev_allowed (e : Evento) : AllowedDiff e (step1ev e) := by
  have h := step1ev_pd e
  unfold AllowedDiff
  split_ifs at h with h1 h2 h3
  · obtain ⟨hp, hd⟩ := Prod.mk.injEq .. ▸ h
    by_cases hz : znorm e.provento = none
    · left
      rw [hp, hd, hz, h1.2.1]
      exact ⟨rfl, by rw [znorm]; simp⟩
    · obtain ⟨v, hv⟩ := Option.ne_none_iff_exists'.mp hz
      right; left
      exact ⟨v, hv, by rw [h1.2.1, znorm]; simp, hp, by rw [hd, hv]⟩
  · obtain ⟨hp, hd⟩ := Prod.mk.injEq .. ▸ h
    by_cases hz : znorm e.desconto = none
    · left
      rw [hp, hd, hz, h2.2.1]
      exact ⟨by rw [znorm]; simp, rfl⟩
    · obtain ⟨v, hv⟩ := Option.ne_none_iff_exists'.mp hz
      right; right; left
      exact ⟨v, hv, by rw [h2.2.1, znorm]; simp, hd, by rw [hp, hv]⟩
  · obtain ⟨hp, hd⟩ := Prod.mk.injEq .. ▸ h
    right; right; right
    exact ⟨hp, hd⟩
  · obtain ⟨hp, hd⟩ := Prod.mk.injEq .. ▸ h
    left
    exact ⟨hp, hd⟩

/-- An ambiguous event was not touched by the move/drop rules: step 1
only zero-normalises it. -/
theorem step1ev_of_amb (e : Evento) (h : ambFlagEv e = true) :
    (step1ev e).provento = znorm e.provento ∧
    (step1ev e).desconto = znorm e.desconto := by
  unfold ambFlagEv at h
  rw [Bool.and_eq_true, Bool.and_eq_true] at h
  obtain ⟨⟨_, hhint0⟩, hkw0⟩ := h
  have hhint : codeHintGet (evCodigo e) = none := by
    simpa [Option.isNone_iff_eq_none] using hhint0
  have hkw : anyKeyword (evDescUp e) = false := by
    simpa using hkw0
  have hdisc : isDiscountEv (evCodigo e) (evDescUp e) = false := by
    rw [isDiscountEv, hhint]
    exact hkw
  have hP : ¬ codeHintGet (evCodigo e) = some "P" := by
    rw [hhint]
    simp
  have hpd := step1ev_pd e
  rw [if_neg (by rw [hdisc]; simp), if_neg (by push_neg; intro _ _; exact hP),
    if_neg (by rw [hdisc]; simp)] at hpd
  exact ⟨congrArg Prod.fst hpd, congrArg Prod.snd hpd⟩

/-! ## Machinery: flip reachability -/

theorem flipReach_refl (a : Evento) : FlipReach a a := Or.inl rfl

theorem flipReach_frame {a b : Evento} (h : FlipReach a b) :
    b.codigo = a.codigo ∧ b.descricao = a.descricao ∧
    b.referencia = a.referencia := by
  rcases h with rfl | ⟨v, _, _, rfl⟩ | ⟨v, _, _, rfl⟩ <;>
    exact ⟨rfl, rfl, rfl⟩

theorem flipReach_flipP {a b : Evento} {v : ℚ} (h : FlipReach a b)
    (hp : b.provento = some v) (hd : b.desconto = none) :
    FlipReach a { b with provento := none, desconto := some v } := by
  rcases h with rfl | ⟨w, hp', hd', rfl⟩ | ⟨w, hd', hp', rfl⟩
  · exact Or.inr (Or.inl ⟨v, hp, hd, rfl⟩)
  · simp at hp
  · obtain ⟨ac, ad, ar, ap, aq⟩ := a
    simp only at hp
    obtain rfl : w = v := by simpa using hp
    left
    simp only at hp' hd'
    subst hp' hd'
    rfl

theorem flipReach_flipD {a b : Evento} {v : ℚ} (h : FlipReach a b)
    (hd : b.desconto = some v) (hp : b.provento = none) :
    FlipReach a { b with provento := some v, desconto := none } := by
  rcases h with rfl | ⟨w, hp', hd', rfl⟩ | ⟨w, hd', hp', rfl⟩
  · exact Or.inr (Or.inr ⟨v, hd, hp, rfl⟩)
  · obtain ⟨ac, ad, ar, ap, aq⟩ := a
    simp only at hd
    obtain rfl : w = v := by simpa using hd
    left
    simp only at hp' hd'
    subst hp' hd'
    rfl
  · simp at hd

/-- Flip reachability from a single-amount event yields single-amount
events. -/
theorem flipReach_single {a b : Evento} (h : FlipReach a b)
    (ha : a.provento = none ∨ a.desconto = none) :
    b.provento = none ∨ b.desconto = none := by
  rcases h with rfl | ⟨v, _, _, rfl⟩ | ⟨v, _, _, rfl⟩
  · exact ha
  · left; rfl
  · right; rfl

/-! ## Machinery: sums under a single update -/

theorem sum_map_set (f : Evento → ℚ) :
    ∀ (l : List Evento) (i : ℕ) (e eN : Evento), l[i]? = some e →
      ((l.set i eN).map f).sum = (l.map f).sum - f e + f eN := by
  intro l
  induction l with
  | nil => intro i e eN h; simp at h
  | cons x xs ih =>
    intro i e eN h
    cases i with
    | zero =>
      simp only [List.getElem?_cons_zero, Option.some.injEq] at h
      subst h
      simp [List.set]
      ring
    | succ j =>
      simp only [List.getElem?_cons_succ] at h
      simp only [List.set, List.map_cons, List.sum_cons, ih j e eN h]
      ring

/-! ## Machinery: the greedy loop -/

theorem objective_nonneg (tv td : Option ℚ) (sv sd : ℚ) :
    0 ≤ objective tv td sv sd := by
  unfold objective
  have h1 : (0 : ℚ) ≤ match tv with | some t => |t - sv| | none => 0 := by
    cases tv <;> simp [abs_nonneg]
  have h2 : (0 : ℚ) ≤ match td with | some t => |t - sd| | none => 0 := by
    cases td <;> simp [abs_nonneg]
  linarith

/-- One flip attempt preserves the flip-reachability invariant. -/
theorem flipStep_loopInv (tv td : Option ℚ) (amb : List ℕ)
    (L₀ : List Evento) (acc : RecState × Bool) (idx : ℕ) (hidx : idx ∈ amb)
    (h : LoopInv amb L₀ acc.1.out) :
    LoopInv amb L₀ (flipStep tv td acc idx).1.out := by
  unfold flipStep
  dsimp only
  cases hout : acc.1.out[idx]? with
  | none => exact h
  | some e =>
    have hlt : idx < acc.1.out.length := by
      by_contra hge
      rw [List.getElem?_eq_none (by omega)] at hout
      exact Option.noConfusion hout
    dsimp only
    cases hpv : e.provento with
    | some pv =>
      cases hdv : e.desconto with
      | none =>
        dsimp only
        split
        · dsimp only
          refine ⟨fun i => ?_, fun i hi => ?_⟩
          · by_cases hij : idx = i
            · subst hij
              rw [List.getElem?_set_self hlt]
              have h1 := h.1 idx
              rw [hout] at h1
              cases hL : L₀[idx]? with
              | none => rw [hL] at h1; exact h1.elim
              | some a =>
                rw [hL] at h1
                exact flipReach_flipP h1 hpv hdv
            · rw [List.getElem?_set_ne hij]
              exact h.1 i
          · have hij : idx ≠ i := fun hh => hi (hh ▸ hidx)
            rw [List.getElem?_set_ne hij]
            exact h.2 i hi
        · exact h
      | some dv => exact h
    | none =>
      cases hdv : e.desconto with
      | none => exact h
      | some dv =>
        dsimp only
        split
        · dsimp only
          refine ⟨fun i => ?_, fun i hi => ?_⟩
          · by_cases hij : idx = i
            · subst hij
              rw [List.getElem?_set_self hlt]
              have h1 := h.1 idx
              rw [hout] at h1
              cases hL : L₀[idx]? with
              | none => rw [hL] at h1; exact h1.elim
              | some a =>
                rw [hL] at h1
                exact flipReach_flipD h1 hdv hpv
            · rw [List.getElem?_set_ne hij]
              exact h.1 i
          · have hij : idx ≠ i := fun hh => hi (hh ▸ hidx)
            rw [List.getElem?_set_ne hij]
            exact h.2 i hi
        · exact h

/-- One flip attempt preserves the sum/best invariant, and never
increases `best`. -/
theorem flipStep_sumInv (tv td : Option ℚ) (acc : RecState × Bool)
    (idx : ℕ) (h : SumInv tv td acc.1) :
    SumInv tv td (flipStep tv td acc idx).1 ∧
    (flipStep tv td acc idx).1.best ≤ acc.1.best := by
  obtain ⟨hsv, hsd, hbest⟩ := h
  unfold flipStep
  dsimp only
  cases hout : acc.1.out[idx]? with
  | none => exact ⟨⟨hsv, hsd, hbest⟩, le_refl _⟩
  | some e =>
    dsimp only
    cases hpv : e.provento with
    | some pv =>
      cases hdv : e.desconto with
      | none =>
        dsimp only
        split
        · next hc =>
          constructor
          · refine ⟨?_, ?_, rfl⟩
            · show acc.1.sv - pv = sumProv (acc.1.out.set idx
                ⟨e.codigo, e.descricao, e.referencia, none, some pv⟩)
              unfold sumProv
              rw [sum_map_set _ acc.1.out idx e _ hout]
              unfold sumProv at hsv
              rw [← hsv, hpv]
              simp
            · show acc.1.sd + pv = sumDesc (acc.1.out.set idx
                ⟨e.codigo, e.descricao, e.referencia, none, some pv⟩)
              unfold sumDesc
              rw [sum_map_set _ acc.1.out idx e _ hout]
              unfold sumDesc at hsd
              rw [← hsd, hdv]
              simp
          · dsimp only
            linarith
        · exact ⟨⟨hsv, hsd, hbest⟩, le_refl _⟩
      | some dv => exact ⟨⟨hsv, hsd, hbest⟩, le_refl _⟩
    | none =>
      cases hdv : e.desconto with
      | none => exact ⟨⟨hsv, hsd, hbest⟩, le_refl _⟩
      | some dv =>
        dsimp only
        split
        · next hc =>
          constructor
          · refine ⟨?_, ?_, rfl⟩
            · show acc.1.sv + dv = sumProv (acc.1.out.set idx
                ⟨e.codigo, e.descricao, e.referencia, some dv, none⟩)
              unfold sumProv
              rw [sum_map_set _ acc.1.out idx e _ hout]
              unfold sumProv at hsv
              rw [← hsv, hpv]
              simp
            · show acc.1.sd - dv = sumDesc (acc.1.out.set idx
                ⟨e.codigo, e.descricao, e.referencia, some dv, none⟩)
              unfold sumDesc
              rw [sum_map_set _ acc.1.out idx e _ hout]
              unfold sumDesc at hsd
              rw [← hsd, hdv]
              simp
          · dsimp only
            linarith
        · exact ⟨⟨hsv, hsd, hbest⟩, le_refl _⟩

/-- One flip attempt either leaves the accumulator unchanged or marks an
improvement that lowers `best` by more than the tolerance, to a
non-negative objective value. -/
theorem flipStep_progress (tv td : Option ℚ) (acc : RecState × Bool)
    (idx : ℕ) :
    flipStep tv td acc idx = acc ∨
    ((flipStep tv td acc idx).2 = true ∧
      0 ≤ (flipStep tv td acc idx).1.best ∧
      (flipStep tv td acc idx).1.best + 1 / 100 < acc.1.best) := by
  unfold flipStep
  dsimp only
  cases hout : acc.1.out[idx]? with
  | none => exact Or.inl rfl
  | some e =>
    dsimp only
    cases hpv : e.provento with
    | some pv =>
      cases hdv : e.desconto with
      | none =>
        dsimp only
        split
        · next hc =>
          right
          exact ⟨rfl, objective_nonneg .., hc⟩
        · exact Or.inl rfl
      | some dv => exact Or.inl rfl
    | none =>
      cases hdv : e.desconto with
      | none => exact Or.inl rfl
      | some dv =>
        dsimp only
        split
        · next hc =>
          right
          exact ⟨rfl, objective_nonneg .., hc⟩
        · exact Or.inl rfl

/-- Folding flip attempts over any subset of the ambiguous indices
preserves the flip-reachability invariant. -/
theorem foldl_flip_loopInv (tv td : Option ℚ) (amb : List ℕ)
    (L₀ : List Evento) :
    ∀ (l : List ℕ), (∀ x ∈ l, x ∈ amb) → ∀ (acc : RecState × Bool),
      LoopInv amb L₀ acc.1.out →
      LoopInv amb L₀ (l.foldl (flipStep tv td) acc).1.out := by
  intro l
  induction l with
  | nil => intro _ acc h; exact h
  | cons x xs ih =>
    intro hsub acc h
    rw [List.foldl_cons]
    exact ih (fun y hy => hsub y (List.mem_cons_of_mem x hy))
      (flipStep tv td acc x)
      (flipStep_loopInv tv td amb L₀ acc x (hsub x (List.mem_cons_self x xs)) h)

theorem foldl_flip_sumInv (tv td : Option ℚ) :
    ∀ (l : List ℕ) (acc : RecState × Bool), SumInv tv td acc.1 →
      SumInv tv td (l.foldl (flipStep tv td) acc).1 ∧
      (l.foldl (flipStep tv td) acc).1.best ≤ acc.1.best := by
  intro l
  induction l with
  | nil => intro acc h; exact ⟨h, le_refl _⟩
  | cons x xs ih =>
    intro acc h
    rw [List.foldl_cons]
    obtain ⟨h1, h2⟩ := flipStep_sumInv tv td acc x h
    obtain ⟨h3, h4⟩ := ih (flipStep tv td acc x) h1
    exact ⟨h3, le_trans h4 h2⟩

theorem foldl_flip_progress (tv td : Option ℚ) :
    ∀ (l : List ℕ) (acc : RecState × Bool),
      l.foldl (flipStep tv td) acc = acc ∨
      ((l.foldl (flipStep tv td) acc).2 = true ∧
        0 ≤ (l.foldl (flipStep tv td) acc).1.best ∧
        (l.foldl (flipStep tv td) acc).1.best + 1 / 100 < acc.1.best) := by
  intro l
  induction l with
  | nil => intro acc; exact Or.inl rfl
  | cons x xs ih =>
    intro acc
    rw [List.foldl_cons]
    rcases flipStep_progress tv td acc x with h1 | ⟨h1, h2, h3⟩
    · rw [h1]
      exact ih acc
    · rcases ih (flipStep tv td acc x) with h4 | ⟨h4, h5, h6⟩
      · rw [h4]
        exact Or.inr ⟨h1, h2, h3⟩
      · exact Or.inr ⟨h4, h5, by linarith⟩

/-- A pass that reports no improvement left the state untouched. -/
theorem onePass_of_false (tv td : Option ℚ) (amb : List ℕ) (st : RecState)
    (h : (onePass tv td amb st).2 = false) :
    onePass tv td amb st = (st, false) := by
  rcases foldl_flip_progress tv td amb (st, false) with h1 | ⟨h1, _, _⟩
  · exact h1
  · rw [onePass] at h
    rw [h] at h1
    exact Bool.noConfusion h1

/-- An improving pass lowers `best` by more than the tolerance and
leaves it non-negative. -/
theorem onePass_improved (tv td : Option ℚ) (amb : List ℕ) (st : RecState)
    (h : (onePass tv td amb st).2 = true) :
    0 ≤ (onePass tv td amb st).1.best ∧
    (onePass tv td amb st).1.best + 1 / 100 < st.best := by
  rcases foldl_flip_progress tv td amb (st, false) with h1 | ⟨_, h2, h3⟩
  · rw [onePass] at h
    rw [h1] at h
    exact Bool.noConfusion h
  · exact ⟨h2, h3⟩

/-- The measure `⌈100·best⌉` strictly drops across an improving pass. -/
theorem ceil_measure_lt {b' b : ℚ} (h0 : 0 ≤ b')
    (h : b' + 1 / 100 < b) :
    (⌈(100 : ℚ) * b'⌉).toNat < (⌈(100 : ℚ) * b⌉).toNat := by
  have l1 : ((⌈(100 : ℚ) * b'⌉ : ℤ) : ℚ) < 100 * b' + 1 :=
    Int.ceil_lt_add_one _
  have l2 : (100 : ℚ) * b ≤ ((⌈(100 : ℚ) * b⌉ : ℤ) : ℚ) := Int.le_ceil _
  have l3 : (100 : ℚ) * b' + 1 ≤ 100 * b := by linarith
  have l4 : (⌈(100 : ℚ) * b'⌉ : ℤ) < ⌈(100 : ℚ) * b⌉ := by
    exact_mod_cast lt_of_lt_of_le (lt_of_lt_of_le l1 l3) l2
  have l5 : (0 : ℤ) ≤ ⌈(100 : ℚ) * b'⌉ := Int.ceil_nonneg (by positivity)
  omega

/-- With fuel exceeding `⌈100·best⌉`, the loop reaches a state in which
no flip improves the objective: exactly the `while` loop's exit
condition. -/
theorem loopFuel_fix (tv td : Option ℚ) (amb : List ℕ) :
    ∀ (n : ℕ) (st : RecState), (⌈(100 : ℚ) * st.best⌉).toNat < n →
      onePass tv td amb (loopFuel tv td amb n st) =
        (loopFuel tv td amb n st, false) := by
  intro n
  induction n with
  | zero => intro st h; omega
  | succ m ih =>
    intro st h
    rw [loopFuel]
    cases hp : (onePass tv td amb st).2 with
    | false =>
      rw [if_neg Bool.false_ne_true]
      have := onePass_of_false tv td amb st hp
      rw [show (onePass tv td amb st).1 = st from congrArg Prod.fst this]
      exact this
    | true =>
      rw [if_pos rfl]
      obtain ⟨h0, hdec⟩ := onePass_improved tv td amb st hp
      exact ih (onePass tv td amb st).1
        (by
          have := ceil_measure_lt h0 hdec
          omega)

/-- The loop state after any number of passes keeps the sum/best
invariant and never raises `best`. -/
theorem loopFuel_sumInv (tv td : Option ℚ) (amb : List ℕ) :
    ∀ (n : ℕ) (st : RecState), SumInv tv td st →
      SumInv tv td (loopFuel tv td amb n st) ∧
      (loopFuel tv td amb n st).best ≤ st.best := by
  intro n
  induction n with
  | zero => intro st h; exact ⟨h, le_refl _⟩
  | succ m ih =>
    intro st h
    rw [loopFuel]
    obtain ⟨h1, h2⟩ := foldl_flip_sumInv tv td amb (st, false) h
    cases hp : (onePass tv td amb st).2 with
    | false =>
      rw [if_neg Bool.false_ne_true]
      exact ⟨h1, h2⟩
    | true =>
      rw [if_pos rfl]
      obtain ⟨h3, h4⟩ := ih (onePass tv td amb st).1 h1
      exact ⟨h3, le_trans h4 h2⟩

theorem loopFuel_loopInv (tv td : Option ℚ) (amb : List ℕ)
    (L₀ : List Evento) :
    ∀ (n : ℕ) (st : RecState), LoopInv amb L₀ st.out →
      LoopInv amb L₀ (loopFuel tv td amb n st).out := by
  intro n
  induction n with
  | zero => intro st h; exact h
  | succ m ih =>
    intro st h
    rw [loopFuel]
    have h1 := foldl_flip_loopInv tv td amb L₀ amb (fun _ hx => hx)
      (st, false) h
    cases hp : (onePass tv td amb st).2 with
    | false =>
      rw [if_neg Bool.false_ne_true]
      exact h1
    | true =>
      rw [if_pos rfl]
      exact ih (onePass tv td amb st).1 h1

/-- Pointwise-related lists have the same length. -/
theorem optRel_length (R : Evento → Evento → Prop) (l1 l2 : List Evento)
    (h : ∀ i : ℕ, optRel R l1[i]? l2[i]?) : l1.length = l2.length := by
  by_contra hne
  rcases Nat.lt_or_ge l1.length l2.length with hlt | hge
  · have h1 := h l1.length
    rw [List.getElem?_eq_none (le_refl _), List.getElem?_eq_getElem hlt]
      at h1
    exact h1
  · have hlt : l2.length < l1.length :=
      Nat.lt_of_le_of_ne hge (fun hh => hne hh.symm)
    have h1 := h l2.length
    rw [List.getElem?_eq_none (le_refl _), List.getElem?_eq_getElem hlt]
      at h1
    exact h1

/-- The single-update relation's composition with the input condition of
C2: an allowed difference from an event with at most one non-zero
amount yields at most one non-null amount. -/
theorem allowedDiff_single {e e' : Evento} (hA : AllowedDiff e e')
    (h : e.provento = none ∨ e.provento = some 0 ∨ e.desconto = none ∨
      e.desconto = some 0) :
    e'.provento = none ∨ e'.desconto = none := by
  rcases hA with ⟨hp, hd⟩ | ⟨v, _, _, hp, _⟩ | ⟨v, _, _, hd, _⟩ | ⟨hp, _⟩
  · rcases h with h | h | h | h
    · left; rw [hp, h, znorm]; simp
    · left; rw [hp, h, znorm]; simp
    · right; rw [hd, h, znorm]; simp
    · right; rw [hd, h, znorm]; simp
  · left; exact hp
  · right; exact hd
  · left; exact hp

/-- Shared shape lemma for the reconciler: same length, frame fields
untouched, amounts changed only in the allowed ways. -/
theorem postProcess_shape (evts : List Evento) (tv td : Option ℚ) :
    (postProcessEventos evts tv td).length = evts.length ∧
    ∀ (i : ℕ) (e e' : Evento), evts[i]? = some e →
      (postProcessEventos evts tv td)[i]? = some e' →
      (e'.codigo = e.codigo ∧ e'.descricao = e.descricao ∧
        e'.referencia = e.referencia) ∧ AllowedDiff e e' := by
  unfold postProcessEventos
  by_cases hnil : evts = []
  · rw [if_pos hnil]
    subst hnil
    refine ⟨rfl, fun i e e' he _ => ?_⟩
    simp at he
  · rw [if_neg hnil]
    dsimp only
    by_cases htot : tv ≠ none ∨ td ≠ none
    · rw [if_pos htot]
      set out0 := evts.map step1ev with hout0
      set amb := ambIdx evts with hamb
      set st0 : RecState :=
        ⟨out0, sumProv out0, sumDesc out0,
          objective tv td (sumProv out0) (sumDesc out0)⟩ with hst0
      have hinv0 : LoopInv amb out0 st0.out := by
        refine ⟨fun i => ?_, fun i _ => rfl⟩
        show optRel FlipReach out0[i]? out0[i]?
        cases hi : out0[i]? with
        | none => trivial
        | some a => exact flipReach_refl a
      have hinv := loopFuel_loopInv tv td amb out0
        (recFuel st0.best) st0 hinv0
      set res := (loopFuel tv td amb (recFuel st0.best) st0).out with hres
      have hlen0 : out0.length = res.length :=
        optRel_length FlipReach out0 res hinv.1
      have hlen : res.length = evts.length := by
        rw [← hlen0, hout0, List.length_map]
      refine ⟨hlen, fun i e e' he he' => ?_⟩
      have hm : out0[i]? = some (step1ev e) := by
        rw [hout0, List.getElem?_map, he, Option.map_some']
      have hrel := hinv.1 i
      rw [hm, he'] at hrel
      have hrel : FlipReach (step1ev e) e' := hrel
      have hframe := flipReach_frame hrel
      refine ⟨⟨hframe.1.trans (step1ev_codigo e),
        hframe.2.1.trans (step1ev_descricao e),
        hframe.2.2.trans (step1ev_referencia e)⟩, ?_⟩
      by_cases hiamb : i ∈ amb
      · have hflag : ambFlagEv e = true := by
          rw [hamb, ambIdx, List.mem_filter] at hiamb
          have := hiamb.2
          rw [he] at this
          exact this
        obtain ⟨hzp, hzd⟩ := step1ev_of_amb e hflag
        rcases hrel with rfl | ⟨v, hp, hd, rfl⟩ | ⟨v, hd, hp, rfl⟩
        · exact step1ev_allowed e
        · right; left
          exact ⟨v, hzp ▸ hp, hzd ▸ hd, rfl, rfl⟩
        · right; right; left
          exact ⟨v, hzd ▸ hd, hzp ▸ hp, rfl, rfl⟩
      · have heq : res[i]? = out0[i]? := hinv.2 i hiamb
        rw [hm, he'] at heq
        obtain rfl : e' = step1ev e := by
          exact Option.some.injEq .. ▸ heq
        exact step1ev_allowed e
    · rw [if_neg htot]
      refine ⟨List.length_map .., fun i e e' he he' => ?_⟩
      rw [List.getElem?_map, he, Option.map_some', Option.some.injEq] at he'
      subst he'
      exact ⟨⟨step1ev_codigo e, step1ev_descricao e, step1ev_referencia e⟩,
        step1ev_allowed e⟩

/-! ## C8: termination of the greedy reallocation loop -/

/-- C8: the objective is non-negative; an improving pass lowers the
tracked `best` by more than the `0.01` tolerance and leaves it
non-negative; hence, run with the fuel `postProcessEventos` supplies,
the loop always reaches a state where a further pass accepts no flip —
exactly the `while improved` exit of the source. -/
theorem c8_loop_terminates (tv td : Option ℚ) (amb : List ℕ)
    (st : RecState) :
    0 ≤ objective tv td st.sv st.sd ∧
    (∀ st' : RecState, onePass tv td amb st = (st', true) →
      0 ≤ st'.best ∧ st'.best + 1 / 100 < st.best) ∧
    onePass tv td amb (loopFuel tv td amb (recFuel st.best) st) =
      (loopFuel tv td amb (recFuel st.best) st, false) := by
  refine ⟨objective_nonneg .., fun st' h => ?_, ?_⟩
  · have h2 : (onePass tv td amb st).2 = true := by rw [h]
    have h3 := onePass_improved tv td amb st h2
    rw [h] at h3
    exact h3
  · exact loopFuel_fix tv td amb (recFuel st.best) st
      (by unfold recFuel; omega)

/-- C8, witness: the single ambiguous 50-earning event against declared
deductions 50: the first pass flips it (improving the objective from 50
to 0) and the loop stops at that fixpoint. -/
theorem c8_witness :
    0 ≤ objective none (some 50) stAmb.sv stAmb.sd ∧
    (0 ≤ stAmbFlipped.best ∧ stAmbFlipped.best + 1 / 100 < stAmb.best) ∧
    onePass none (some 50) [0]
        (loopFuel none (some 50) [0] (recFuel stAmb.best) stAmb) =
      (loopFuel none (some 50) [0] (recFuel stAmb.best) stAmb, false) :=
  ⟨(c8_loop_terminates none (some 50) [0] stAmb).1,
   (c8_loop_terminates none (some 50) [0] stAmb).2.1 stAmbFlipped
     (by decide),
   (c8_loop_terminates none (some 50) [0] stAmb).2.2⟩

/-! ## C4 (amended): the objective never increases across the search -/

/-- C4, amended: the mismatch objective of the reconciled list is at
most the objective of the list after forced classification and
zero-normalisation (`evts.map step1ev`) — the local search never makes
it worse.  (Against the raw input the claim fails: see the
counterexample.) -/
theorem c4_mismatch_decreases (evts : List Evento) (tv td : Option ℚ) :
    mismatch tv td (postProcessEventos evts tv td) ≤
      mismatch tv td (evts.map step1ev) := by
  unfold postProcessEventos
  by_cases hnil : evts = []
  · rw [if_pos hnil]
    subst hnil
    rw [List.map_nil]
  · rw [if_neg hnil]
    dsimp only
    by_cases htot : tv ≠ none ∨ td ≠ none
    · rw [if_pos htot]
      obtain ⟨hfin, hle⟩ := loopFuel_sumInv tv td (ambIdx evts)
        (recFuel (objective tv td (sumProv (evts.map step1ev))
          (sumDesc (evts.map step1ev))))
        ⟨evts.map step1ev, sumProv (evts.map step1ev),
          sumDesc (evts.map step1ev),
          objective tv td (sumProv (evts.map step1ev))
            (sumDesc (evts.map step1ev))⟩
        ⟨rfl, rfl, rfl⟩
      unfold mismatch
      rw [← hfin.1, ← hfin.2.1, ← hfin.2.2]
      exact hle
    · rw [if_neg htot]

/-! ## C2 (amended): the single-amount invariant -/

/-- C2, amended: whenever every input event carries at most one non-null
non-zero amount (as the deterministic single-column extraction
guarantees), every event returned by the reconciler has at most one
non-null amount.  (An input event carrying both non-zero amounts under a
non-deduction classification passes through with both: see the
counterexample.) -/
theorem c2_single_amount (evts : List Evento) (tv td : Option ℚ)
    (h : ∀ e ∈ evts, e.provento = none ∨ e.provento = some 0 ∨
      e.desconto = none ∨ e.desconto = some 0) :
    ∀ e' ∈ postProcessEventos evts tv td,
      e'.provento = none ∨ e'.desconto = none := by
  intro e' he'
  obtain ⟨i, hi⟩ := List.mem_iff_getElem?.mp he'
  have hshape := postProcess_shape evts tv td
  have hilt : i < (postProcessEventos evts tv td).length := by
    by_contra hge
    rw [List.getElem?_eq_none (Nat.le_of_not_lt hge)] at hi
    exact Option.noConfusion hi
  have hievts : i < evts.length := hshape.1 ▸ hilt
  have he : evts[i]? = some evts[i] := List.getElem?_eq_getElem hievts
  have hdiff := hshape.2 i evts[i] e' he hi
  exact allowedDiff_single hdiff.2 (h evts[i] (List.getElem_mem hievts))

/-- C2, witness: the ambiguous earning event reconciled against declared
deductions 50 is flipped, and the output event has a single amount. -/
theorem c2_witness :
    evAmbRes.provento = none ∨ evAmbRes.desconto = none :=
  c2_single_amount [evAmb] none (some 50) (by decide) evAmbRes (by decide)

/-! ## C10 (amended): the frame of the reconciler -/

/-- C10, amended: the reconciler returns a list of the same length and
order; `codigo`, `descricao` and `referencia` are unchanged; the amount
pair changes only by zero-to-null normalisation, a move of the single
amount between the fields, or — for a both-amount event classified as
deduction — the drop of `provento` (the mode the claim's parenthetical
missed). -/
theorem c10_frame (evts : List Evento) (tv td : Option ℚ) :
    (postProcessEventos evts tv td).length = evts.length ∧
    ∀ (i : ℕ) (e e' : Evento), evts[i]? = some e →
      (postProcessEventos evts tv td)[i]? = some e' →
      (e'.codigo = e.codigo ∧ e'.descricao = e.descricao ∧
        e'.referencia = e.referencia) ∧ AllowedDiff e e' :=
  postProcess_shape evts tv td

/-- C10, witness: the dropped-`provento` event of the counterexample
still satisfies the amended frame description. -/
theorem c10_witness :
    (evBothDiscRes.codigo = evBothDisc.codigo ∧
      evBothDiscRes.descricao = evBothDisc.descricao ∧
      evBothDiscRes.referencia = evBothDisc.referencia) ∧
    AllowedDiff evBothDisc evBothDiscRes :=
  (c10_frame [evBothDisc] none none).2 0 evBothDisc evBothDiscRes
    (by decide) (by decide)

/-- C6, witness: two rows share the id `111`, so the id step selects
nothing and the resolution falls through to step 2. -/
theorem c6_witness :
    pyDigits (some "111") ≠ "" ∧
    ([rowDupA, rowDupB].any (fun r => r.cpfDig ≠ "") = true) ∧
    ((([rowDupA, rowDupB].filter
        (fun r => r.cpfDig = pyDigits (some "111"))).length = 1 ↔
      (findColaboradorRef (fun l => l) (fun _ => false) [rowDupA, rowDupB]
        (some "111") (some "Jose") none none).matchMetodo = some "cpf") ∧
    (([rowDupA, rowDupB].filter
        (fun r => r.cpfDig = pyDigits (some "111"))).length = 1 →
      (findColaboradorRef (fun l => l) (fun _ => false) [rowDupA, rowDupB]
        (some "111") (some "Jose") none none).matchScore = some 1 ∧
      (findColaboradorRef (fun l => l) (fun _ => false) [rowDupA, rowDupB]
        (some "111") (some "Jose") none none).matchMetodo = some "cpf") ∧
    (([rowDupA, rowDupB].filter
        (fun r => r.cpfDig = pyDigits (some "111"))).length ≠ 1 →
      findColaboradorRef (fun l => l) (fun _ => false) [rowDupA, rowDupB]
        (some "111") (some "Jose") none none =
        findStep2 (fun l => l) (fun _ => false) [rowDupA, rowDupB]
          (some "111") (some "Jose") none none)) :=
  ⟨by decide, by decide,
   c6_id_step (fun l => l) (fun _ => false) [rowDupA, rowDupB]
     (some "111") (some "Jose") none none (by decide) (by decide)⟩

/-- C7, witness: the amended formula evaluated at the counterexample
pair. -/
theorem c7_witness :
    scoreName "ANA SILVA" "MARIA SILVA" =
      min (88 / 100 * jaccTok "ANA SILVA" "MARIA SILVA" +
        if (tokensOf "ANA SILVA").head? = (tokensOf "MARIA SILVA").head?
        then 12 / 100 else 0)
        (99 / 100) :=
  c7_formula "ANA SILVA" "MARIA SILVA" (by decide) (by decide) (by decide)
    (by decide) (by decide)

/-! ## Machinery for C9: run substitution -/

/-- Replacing runs leaves a list without any run member untouched. -/
theorem subRuns_id (p : Char → Bool) :
    ∀ (b : Bool) (l : List Char), (∀ c ∈ l, p c = false) →
      subRuns p b l = l := by
  intro b l
  induction l generalizing b with
  | nil => intro _; rfl
  | cons x xs ih =>
    intro h
    rw [subRuns, if_neg (by rw [h x (List.mem_cons_self x xs)]; simp)]
    rw [ih false (fun c hc => h c (List.mem_cons_of_mem x hc))]

/-- Members of the substituted list: the inserted space, or an original
non-run character. -/
theorem subRuns_mem (p : Char → Bool) :
    ∀ (b : Bool) (l : List Char) (c : Char), c ∈ subRuns p b l →
      c = ' ' ∨ (c ∈ l ∧ p c = false) := by
  intro b l
  induction l generalizing b with
  | nil => intro c hc; cases hc
  | cons x xs ih =>
    intro c hc
    rw [subRuns] at hc
    by_cases hp : p x = true
    · rw [if_pos hp] at hc
      by_cases hb : b = true
      · rw [if_pos hb] at hc
        rcases ih true c hc with h | ⟨h1, h2⟩
        · exact Or.inl h
        · exact Or.inr ⟨List.mem_cons_of_mem x h1, h2⟩
      · rw [if_neg hb] at hc
        rcases List.mem_cons.mp hc with rfl | hc2
        · exact Or.inl rfl
        · rcases ih true c hc2 with h | ⟨h1, h2⟩
          · exact Or.inl h
          · exact Or.inr ⟨List.mem_cons_of_mem x h1, h2⟩
    · rw [if_neg hp] at hc
      rcases List.mem_cons.mp hc with rfl | hc2
      · exact Or.inr ⟨List.mem_cons_self _ _, Bool.not_eq_true _ ▸ hp⟩
      · rcases ih false c hc2 with h | ⟨h1, h2⟩
        · exact Or.inl h
        · exact Or.inr ⟨List.mem_cons_of_mem x h1, h2⟩

/-- Inside a run the next emitted character is never a run character. -/
theorem subRuns_head_nonP (p : Char → Bool) :
    ∀ (l : List Char) (c : Char), (subRuns p true l).head? = some c →
      p c = false := by
  intro l
  induction l with
  | nil => intro c hc; cases hc
  | cons x xs ih =>
    intro c hc
    rw [subRuns] at hc
    by_cases hp : p x = true
    · rw [if_pos hp, if_pos rfl] at hc
      exact ih c hc
    · rw [if_neg hp] at hc
      rw [List.head?_cons, Option.some.injEq] at hc
      subst hc
      exact Bool.not_eq_true _ ▸ hp

/-- The substituted list never carries two adjacent run characters. -/
theorem subRuns_chain (p : Char → Bool) :
    ∀ (b : Bool) (l : List Char),
      List.Chain' (fun a c => ¬(p a = true ∧ p c = true))
        (subRuns p b l) := by
  intro b l
  induction l generalizing b with
  | nil => exact List.chain'_nil
  | cons x xs ih =>
    rw [subRuns]
    by_cases hp : p x = true
    · rw [if_pos hp]
      by_cases hb : b = true
      · rw [if_pos hb]
        exact ih true
      · rw [if_neg hb]
        refine List.chain'_cons'.mpr ⟨fun y hy => ?_, ih true⟩
        intro ⟨_, hpy⟩
        rw [subRuns_head_nonP p xs y hy] at hpy
        exact Bool.false_ne_true hpy
    · rw [if_neg hp]
      refine List.chain'_cons'.mpr ⟨fun y hy => ?_, ih false⟩
      intro ⟨hpx, _⟩
      exact hp hpx

/-- On a list whose run characters are all `' '`, pairwise separated,
and (when continuing a run) not initial, substitution is the
identity. -/
theorem subRuns_id_sparse (p : Char → Bool) :
    ∀ (l : List Char) (b : Bool),
      (∀ c ∈ l, p c = true → c = ' ') →
      List.Chain' (fun a c => ¬(p a = true ∧ p c = true)) l →
      (b = true → ∀ c, l.head? = some c → p c = false) →
      subRuns p b l = l := by
  intro l
  induction l with
  | nil => intro b _ _ _; rfl
  | cons x xs ih =>
    intro b hsp hch hhd
    rw [subRuns]
    by_cases hp : p x = true
    · have hb : b = false := by
        cases b with
        | false => rfl
        | true =>
          rw [hhd rfl x List.head?_cons] at hp
          exact absurd hp Bool.false_ne_true
      rw [if_pos hp, hb, if_neg Bool.false_ne_true]
      have hx : x = ' ' := hsp x (List.mem_cons_self x xs) hp
      rw [ih true (fun c hc hpc => hsp c (List.mem_cons_of_mem x hc) hpc)
        (List.chain'_cons'.mp hch).2
        (fun _ c hc => by
          have := (List.chain'_cons'.mp hch).1 c hc
          by_contra hpc
          exact this ⟨hp, Bool.not_eq_false _ ▸ hpc⟩), hx]
    · rw [if_neg hp]
      rw [ih false (fun c hc hpc => hsp c (List.mem_cons_of_mem x hc) hpc)
        (List.chain'_cons'.mp hch).2 (fun h => absurd h Bool.false_ne_true)]

/-! ## Machinery for C9: dropWhile and strip -/

theorem dropWhile_head_nonP (p : Char → Bool) :
    ∀ (l : List Char) (c : Char), (l.dropWhile p).head? = some c →
      p c = false := by
  intro l
  induction l with
  | nil => intro c hc; cases hc
  | cons x xs ih =>
    intro c hc
    rw [List.dropWhile_cons] at hc
    by_cases hp : p x = true
    · rw [if_pos hp] at hc
      exact ih c hc
    · rw [if_neg hp] at hc
      rw [List.head?_cons, Option.some.injEq] at hc
      subst hc
      exact Bool.not_eq_true _ ▸ hp

theorem dropWhile_id (p : Char → Bool) (l : List Char)
    (h : ∀ c, l.head? = some c → p c = false) : l.dropWhile p = l := by
  cases l with
  | nil => rfl
  | cons x xs =>
    rw [List.dropWhile_cons, if_neg (by rw [h x List.head?_cons]; simp)]

theorem chain'_dropWhile {R : Char → Char → Prop} (p : Char → Bool) :
    ∀ (l : List Char), List.Chain' R l → List.Chain' R (l.dropWhile p) := by
  intro l
  induction l with
  | nil => intro _; exact List.chain'_nil
  | cons x xs ih =>
    intro h
    rw [List.dropWhile_cons]
    by_cases hp : p x = true
    · rw [if_pos hp]
      exact ih h.tail
    · rw [if_neg hp]
      exact h

/-- The strip of a list with no leading and no trailing whitespace is
the identity. -/
theorem pyStrip_id (l : List Char)
    (hh : ∀ c, l.head? = some c → isWsChar c = false)
    (hl : ∀ c, l.getLast? = some c → isWsChar c = false) :
    pyStripList l = l := by
  unfold pyStripList
  rw [dropWhile_id _ l hh,
    dropWhile_id _ l.reverse (fun c hc => hl c (List.head?_reverse l ▸ hc)),
    List.reverse_reverse]

theorem getLast?_dropWhile (p : Char → Bool) :
    ∀ (l : List Char), l.dropWhile p ≠ [] →
      (l.dropWhile p).getLast? = l.getLast? := by
  intro l
  induction l with
  | nil => intro h; exact absurd rfl h
  | cons x xs ih =>
    intro h
    rw [List.dropWhile_cons] at h ⊢
    by_cases hp : p x = true
    · rw [if_pos hp] at h ⊢
      have hxs : xs ≠ [] := by
        intro hnil
        subst hnil
        exact h rfl
      rw [ih h]
      cases xs with
      | nil => exact absurd rfl hxs
      | cons y ys => rw [List.getLast?_cons_cons]
    · rw [if_neg hp] at h ⊢

theorem pyStrip_head (l : List Char) (c : Char)
    (h : (pyStripList l).head? = some c) : isWsChar c = false := by
  unfold pyStripList at h
  rw [List.head?_reverse] at h
  have hne : (l.dropWhile isWsChar).reverse.dropWhile isWsChar ≠ [] := by
    intro hnil
    rw [hnil] at h
    cases h
  rw [getLast?_dropWhile _ _ hne, List.getLast?_reverse] at h
  exact dropWhile_head_nonP _ _ _ h

theorem pyStrip_last (l : List Char) (c : Char)
    (h : (pyStripList l).getLast? = some c) : isWsChar c = false := by
  unfold pyStripList at h
  rw [List.getLast?_reverse] at h
  exact dropWhile_head_nonP _ _ _ h

theorem pyStrip_chain {R : Char → Char → Prop}
    (hsymm : ∀ a b, R a b → R b a) (l : List Char)
    (h : List.Chain' R l) : List.Chain' R (pyStripList l) := by
  unfold pyStripList
  have h1 := chain'_dropWhile isWsChar l h
  have h2 : List.Chain' R (l.dropWhile isWsChar).reverse :=
    List.chain'_reverse.mpr (h1.imp (fun a b hab => hsymm a b hab))
  have h3 := chain'_dropWhile isWsChar _ h2
  exact List.chain'_reverse.mpr (h3.imp (fun a b hab => hsymm a b hab))

theorem pyStrip_mem (l : List Char) (c : Char) (h : c ∈ pyStripList l) :
    c ∈ l := by
  unfold pyStripList at h
  rw [List.mem_reverse] at h
  have h1 := (List.dropWhile_sublist _).subset h
  rw [List.mem_reverse] at h1
  exact (List.dropWhile_sublist _).subset h1

/-! ## Machinery for C9: uppercasing characters -/

theorem toNat_ofNat_small (m : ℕ) (h : m < 55296) :
    (Char.ofNat m).toNat = m := by
  rw [Char.ofNat, dif_pos (Or.inl h)]
  rfl

/-- `Char.toUpper` on code points. -/
theorem toNat_toUpper (c : Char) :
    (Char.toUpper c).toNat =
      if 97 ≤ c.toNat ∧ c.toNat ≤ 122 then c.toNat - 32 else c.toNat := by
  unfold Char.toUpper
  dsimp only
  by_cases h : 97 ≤ c.toNat ∧ c.toNat ≤ 122
  · rw [if_pos ⟨h.1, h.2⟩, if_pos h]
    exact toNat_ofNat_small _ (by omega)
  · rw [if_neg (fun hh => h ⟨hh.1, hh.2⟩), if_neg h]

theorem toUpper_canon (c : Char) (h : isCanonCh c = true) :
    Char.toUpper c = c := by
  have hn : (65 ≤ c.toNat ∧ c.toNat ≤ 90) ∨ (48 ≤ c.toNat ∧ c.toNat ≤ 57) ∨
      c.toNat = 32 := by
    simpa [isCanonCh, Bool.or_eq_true, decide_eq_true_eq, or_assoc] using h
  unfold Char.toUpper
  dsimp only
  rw [if_neg (by omega)]

theorem canon_toUpper_alnum (c : Char) (h : isAlnumSpace c = true) :
    isCanonCh (Char.toUpper c) = true := by
  have hn : (65 ≤ c.toNat ∧ c.toNat ≤ 90) ∨ (97 ≤ c.toNat ∧ c.toNat ≤ 122) ∨
      (48 ≤ c.toNat ∧ c.toNat ≤ 57) ∨ c.toNat = 32 := by
    simpa [isAlnumSpace, Bool.or_eq_true, decide_eq_true_eq, or_assoc] using h
  have ht := toNat_toUpper c
  simp only [isCanonCh, Bool.or_eq_true, Bool.and_eq_true, decide_eq_true_eq]
  split_ifs at ht <;> omega

/-- Uppercasing never creates or destroys whitespace. -/
theorem isWs_toUpper (c : Char) :
    isWsChar (Char.toUpper c) = isWsChar c := by
  have ht := toNat_toUpper c
  by_cases h : 97 ≤ c.toNat ∧ c.toNat ≤ 122
  · rw [if_pos h] at ht
    have hL : isWsChar (Char.toUpper c) = false := by
      simp only [isWsChar, Bool.or_eq_false_iff, decide_eq_false_iff_not]
      omega
    have hR : isWsChar c = false := by
      simp only [isWsChar, Bool.or_eq_false_iff, decide_eq_false_iff_not]
      omega
    rw [hL, hR]
  · rw [if_neg h] at ht
    simp only [isWsChar, ht]

theorem canon_alnum (c : Char) (h : isCanonCh c = true) :
    isAlnumSpace c = true := by
  have hn : (65 ≤ c.toNat ∧ c.toNat ≤ 90) ∨ (48 ≤ c.toNat ∧ c.toNat ≤ 57) ∨
      c.toNat = 32 := by
    simpa [isCanonCh, Bool.or_eq_true, decide_eq_true_eq, or_assoc] using h
  simp only [isAlnumSpace, Bool.or_eq_true, Bool.and_eq_true, decide_eq_true_eq]
  omega

/-- The only whitespace canonical character is the space itself. -/
theorem canon_ws_eq_space (c : Char) (hc : isCanonCh c = true)
    (hw : isWsChar c = true) : c = ' ' := by
  have hn : (65 ≤ c.toNat ∧ c.toNat ≤ 90) ∨ (48 ≤ c.toNat ∧ c.toNat ≤ 57) ∨
      c.toNat = 32 := by
    simpa [isCanonCh, Bool.or_eq_true, decide_eq_true_eq, or_assoc] using hc
  have hwn : c.toNat = 32 ∨ c.toNat = 9 ∨ c.toNat = 10 ∨ c.toNat = 13 ∨
      c.toNat = 11 ∨ c.toNat = 12 := by
    simpa [isWsChar, Bool.or_eq_true, decide_eq_true_eq, or_assoc] using hw
  have h32 : c.toNat = 32 := by omega
  have hval : c.val.toBitVec.toNat = (' ').val.toBitVec.toNat := h32
  exact Char.eq_of_val_eq (congrArg UInt32.mk (BitVec.eq_of_toNat_eq hval))

theorem map_id_of_mem (f : Char → Char) :
    ∀ (l : List Char), (∀ c ∈ l, f c = c) → l.map f = l := by
  intro l
  induction l with
  | nil => intro _; rfl
  | cons x xs ih =>
    intro h
    rw [List.map_cons, h x (List.mem_cons_self _ _),
      ih (fun c hc => h c (List.mem_cons_of_mem x hc))]

/-! ## Machinery for C9: the shape of normalised output -/

theorem normNome_mem_canon (nfkd : List Char → List Char)
    (comb : Char → Bool) (l : List Char) :
    ∀ c ∈ normNomeList nfkd comb l, isCanonCh c = true := by
  intro c hc
  simp only [normNomeList] at hc
  rw [List.mem_map] at hc
  obtain ⟨d, hd, rfl⟩ := hc
  have hd4 := pyStrip_mem _ _ hd
  rcases subRuns_mem _ _ _ _ hd4 with rfl | ⟨hd3, _⟩
  · exact canon_toUpper_alnum _ (by decide)
  · rcases subRuns_mem _ _ _ _ hd3 with rfl | ⟨_, hna⟩
    · exact canon_toUpper_alnum _ (by decide)
    · exact canon_toUpper_alnum _ (by simpa using hna)

theorem normNome_chain (nfkd : List Char → List Char) (comb : Char → Bool)
    (l : List Char) :
    List.Chain' (fun a b => ¬(isWsChar a = true ∧ isWsChar b = true))
      (normNomeList nfkd comb l) := by
  simp only [normNomeList]
  apply List.chain'_map_of_chain' Char.toUpper
  · intro a b hab
    rw [isWs_toUpper, isWs_toUpper]
    exact hab
  · exact pyStrip_chain (fun a b h hp => h ⟨hp.2, hp.1⟩) _
      (subRuns_chain isWsChar false _)

theorem normNome_head (nfkd : List Char → List Char) (comb : Char → Bool)
    (l : List Char) (c : Char)
    (h : (normNomeList nfkd comb l).head? = some c) :
    isWsChar c = false := by
  simp only [normNomeList] at h
  rw [List.head?_map] at h
  obtain ⟨d, hd, hfd⟩ := Option.map_eq_some'.mp h
  subst hfd
  rw [isWs_toUpper]
  exact pyStrip_head _ _ hd

theorem normNome_last (nfkd : List Char → List Char) (comb : Char → Bool)
    (l : List Char) (c : Char)
    (h : (normNomeList nfkd comb l).getLast? = some c) :
    isWsChar c = false := by
  simp only [normNomeList] at h
  rw [List.getLast?_map] at h
  obtain ⟨d, hd, hfd⟩ := Option.map_eq_some'.mp h
  subst hfd
  rw [isWs_toUpper]
  exact pyStrip_last _ _ hd

/-- The normalisation pipeline is the identity on its own output. -/
theorem normNome_idem (nfkd : List Char → List Char) (comb : Char → Bool)
    (hn : ∀ l : List Char, (∀ c ∈ l, isCanonCh c = true) → nfkd l = l)
    (hc : ∀ c : Char, isCanonCh c = true → comb c = false)
    (l : List Char) :
    normNomeList nfkd comb (normNomeList nfkd comb l) =
      normNomeList nfkd comb l := by
  set u := normNomeList nfkd comb l with hu
  have hcanon : ∀ c ∈ u, isCanonCh c = true := normNome_mem_canon nfkd comb l
  have hchain := normNome_chain nfkd comb l
  rw [← hu] at hchain
  show (pyStripList (subRuns isWsChar false
    (subRuns (fun c => ! isAlnumSpace c) false
      ((nfkd u).filter (fun c => ! comb c))))).map Char.toUpper = u
  rw [hn u hcanon,
    List.filter_eq_self.mpr (fun c hcm => by rw [hc c (hcanon c hcm)]; rfl),
    subRuns_id _ false u (fun c hcm => by
      show (! isAlnumSpace c) = false
      rw [canon_alnum c (hcanon c hcm)]
      rfl),
    subRuns_id_sparse isWsChar u false
      (fun c hcm hw => canon_ws_eq_space c (hcanon c hcm) hw) hchain
      (fun hfalse => absurd hfalse Bool.false_ne_true),
    pyStrip_id u (fun c h => normNome_head nfkd comb l c (hu ▸ h))
      (fun c h => normNome_last nfkd comb l c (hu ▸ h))]
  exact map_id_of_mem _ u (fun c hcm => toUpper_canon c (hcanon c hcm))

/-! ## C9: idempotence of name normalisation -/

/-- C9: `_norm_nome` is idempotent, for any NFKD decomposition fixing
canonical (uppercase basic-latin alphanumeric and space) strings and any
combining-class table that marks no canonical character — the actual
Unicode tables satisfy both. -/
theorem c9_norm_idempotent (nfkd : List Char → List Char)
    (comb : Char → Bool)
    (hn : ∀ l : List Char, (∀ c ∈ l, isCanonCh c = true) → nfkd l = l)
    (hc : ∀ c : Char, isCanonCh c = true → comb c = false) (s : String) :
    normNomeOpt nfkd comb (some (normNomeOpt nfkd comb (some s))) =
      normNomeOpt nfkd comb (some s) := by
  by_cases hs : s = ""
  · subst hs
    rfl
  · have h1 : normNomeOpt nfkd comb (some s) = normNomeS nfkd comb s := by
      simp [normNomeOpt, hs]
    rw [h1]
    by_cases hu : normNomeS nfkd comb s = ""
    · rw [hu]
      rfl
    · simp only [normNomeOpt, if_neg hu]
      exact congrArg String.mk (normNome_idem nfkd comb hn hc s.data)

/-- C9, witness: idempotence at the NFKD decomposition restricted to the
identity, an empty combining table, and a concrete messy name. -/
theorem c9_witness :
    normNomeOpt (fun l => l) (fun _ => false)
        (some (normNomeOpt (fun l => l) (fun _ => false)
          (some "  Joao   da Silva!  "))) =
      normNomeOpt (fun l => l) (fun _ => false)
        (some "  Joao   da Silva!  ") :=
  c9_norm_idempotent (fun l => l) (fun _ => false) (fun _ _ => rfl)
    (fun _ _ => rfl) "  Joao   da Silva!  "

end DemPagto
